import Mathlib

/-!
Verification of the Sudoku puzzle engine and room mutation core of the
collaborative-sudoku repository.  Grids are 9x9 arrays of numbers in [0,9]
(0 = empty), embedded as `List (List Nat)`.  The TypeScript functions from
`client/src/lib/sudoku.ts` and the server move/undo handlers are translated
into executable Lean definitions below, and the spec's claims are settled
against them.
-/

set_option maxRecDepth 4000
set_option linter.constructorNameAsVariable false

namespace Sudoku

/-- A 9x9 numeric grid, row-major, entries in [0,9] with 0 meaning empty. -/
abbrev Grid := List (List Nat)

/-- Read entry `(r, c)` of a list-of-lists, with default `d` out of range
(JS `board[r][c]` on a well-formed board; the default only matters for
ill-formed input). -/
def get2 (d : α) (m : List (List α)) (r c : Nat) : α :=
  (m.getD r []).getD c d

/-- Write entry `(r, c)` of a list-of-lists (no-op out of range, like
`List.set`). -/
def set2 (m : List (List α)) (r c : Nat) (v : α) : List (List α) :=
  m.set r ((m.getD r []).set c v)

/-- `board[r][c]` for a numeric grid: empty cells and out-of-range reads give 0. -/
def cell (g : Grid) (r c : Nat) : Nat := get2 0 g r c

/-- `board[r][c] = v`. -/
def setCell (g : Grid) (r c : Nat) (v : Nat) : Grid := set2 g r c v

/-- The shape invariant of every grid-shaped value in the system: 9 rows of 9. -/
def dims2 (m : List (List α)) : Prop :=
  m.length = 9 ∧ ∀ row ∈ m, row.length = 9

/-- All entries are in [0,9] (the data-model range of a grid cell). -/
def entriesLe9 (g : Grid) : Prop := ∀ r c : Fin 9, cell g r c ≤ 9

/-- No empty cells among the 81 playing cells. -/
def fullGrid (g : Grid) : Prop := ∀ r c : Fin 9, cell g r c ≠ 0

instance : DecidablePred (α := Grid) entriesLe9 := fun _ =>
  inferInstanceAs (Decidable (∀ _ _ : Fin 9, _))

instance : DecidablePred (α := Grid) fullGrid := fun _ =>
  inferInstanceAs (Decidable (∀ _ _ : Fin 9, _))

instance (m : List (List α)) : Decidable (dims2 m) := by
  unfold dims2; infer_instance

section ListLemmas

variable {α : Type _}

theorem getD_set_self (l : List α) (n : Nat) (v d : α) (h : n < l.length) :
    (l.set n v).getD n d = v := by
  induction l generalizing n with
  | nil => simp at h
  | cons a t ih =>
    cases n with
    | zero => rfl
    | succ m => simpa using ih m (by simpa using h)

theorem getD_set_ne (l : List α) (n m : Nat) (v d : α) (h : n ≠ m) :
    (l.set n v).getD m d = l.getD m d := by
  induction l generalizing n m with
  | nil => rfl
  | cons a t ih =>
    cases n with
    | zero =>
      cases m with
      | zero => exact absurd rfl h
      | succ k => rfl
    | succ n' =>
      cases m with
      | zero => rfl
      | succ k => simpa using ih n' k (by omega)

theorem set_of_length_le (l : List α) (n : Nat) (v : α) (h : l.length ≤ n) :
    l.set n v = l := by
  induction l generalizing n with
  | nil => rfl
  | cons a t ih =>
    cases n with
    | zero => simp at h
    | succ m => simpa using ih m (by simpa using h)

theorem getD_of_length_le (l : List α) (n : Nat) (d : α) (h : l.length ≤ n) :
    l.getD n d = d := by
  induction l generalizing n with
  | nil => rfl
  | cons a t ih =>
    cases n with
    | zero => simp at h
    | succ m => simpa using ih m (by simpa using h)

theorem getD_mem_of_lt (l : List α) (n : Nat) (d : α) (h : n < l.length) :
    l.getD n d ∈ l := by
  induction l generalizing n with
  | nil => simp at h
  | cons a t ih =>
    cases n with
    | zero => simp [List.getD]
    | succ m =>
      have := ih m (by simpa using h)
      simpa using Or.inr this

end ListLemmas

section Get2Set2

variable {α : Type _}

theorem rowLen_of_dims2 {m : List (List α)} (hm : dims2 m) {r : Nat} (hr : r < 9) :
    (m.getD r []).length = 9 :=
  hm.2 _ (getD_mem_of_lt m r [] (by rw [hm.1]; exact hr))

theorem get2_set2_self {m : List (List α)} (d : α) {r c : Nat} (v : α)
    (hm : dims2 m) (hr : r < 9) (hc : c < 9) :
    get2 d (set2 m r c v) r c = v := by
  have hrlen : r < m.length := by rw [hm.1]; exact hr
  have hrow : (m.getD r []).length = 9 := rowLen_of_dims2 hm hr
  unfold get2 set2
  rw [getD_set_self _ _ _ _ hrlen, getD_set_self _ _ _ _ (by rw [hrow]; exact hc)]

theorem get2_set2_ne {m : List (List α)} (d : α) {r c r' c' : Nat} (v : α)
    (h : r ≠ r' ∨ c ≠ c') :
    get2 d (set2 m r c v) r' c' = get2 d m r' c' := by
  unfold get2 set2
  rcases h with h | h
  · rw [getD_set_ne _ _ _ _ _ h]
  · by_cases hr : r = r'
    · subst hr
      by_cases hlen : r < m.length
      · rw [getD_set_self _ _ _ _ hlen, getD_set_ne _ _ _ _ _ h]
      · rw [set_of_length_le _ _ _ (by omega)]
    · rw [getD_set_ne _ _ _ _ _ hr]

theorem dims2_set2 {m : List (List α)} {r c : Nat} {v : α} (hm : dims2 m) :
    dims2 (set2 m r c v) := by
  by_cases hr : r < 9
  · refine ⟨by simpa [set2] using hm.1, ?_⟩
    intro row hrow
    rcases List.mem_or_eq_of_mem_set hrow with h | h
    · exact hm.2 _ h
    · subst h
      rw [List.length_set]; exact rowLen_of_dims2 hm hr
  · have : set2 m r c v = m := by
      unfold set2
      exact set_of_length_le _ _ _ (by rw [hm.1]; omega)
    rw [this]; exact hm

end Get2Set2

/-! ### Cell positions and empty-cell search

`countSolutions`/`fillBoard` scan for the first empty cell with nested
row-major loops over `0..8 x 0..8`; we materialise that scan order as a list. -/

/-- All 81 cell positions in row-major order (the nested `for` loops). -/
def positions81 : List (Nat × Nat) :=
  (List.range 9).flatMap fun r => (List.range 9).map fun c => (r, c)

theorem mem_positions81 {p : Nat × Nat} :
    p ∈ positions81 ↔ p.1 < 9 ∧ p.2 < 9 := by
  cases p with
  | mk r c =>
    simp only [positions81, List.mem_flatMap, List.mem_map, List.mem_range]
    constructor
    · rintro ⟨a, ha, b, hb, h⟩
      obtain ⟨rfl, rfl⟩ : a = r ∧ b = c := Prod.mk.injEq .. ▸ h
      exact ⟨ha, hb⟩
    · rintro ⟨hr, hc⟩
      exact ⟨r, hr, c, hc, rfl⟩

/-- First empty cell in row-major order (the `for row / for col ... if
board[row][col] === 0` search shared by the solver and the generator). -/
def findEmpty (g : Grid) : Option (Nat × Nat) :=
  positions81.find? fun p => cell g p.1 p.2 == 0

theorem findEmpty_none_iff {g : Grid} :
    findEmpty g = none ↔ fullGrid g := by
  unfold findEmpty fullGrid
  rw [List.find?_eq_none]
  constructor
  · intro h r c
    have := h (r.val, c.val) (mem_positions81.mpr ⟨r.isLt, c.isLt⟩)
    simpa using this
  · intro h p hp
    rcases mem_positions81.mp hp with ⟨h1, h2⟩
    simpa using h ⟨p.1, h1⟩ ⟨p.2, h2⟩

theorem findEmpty_some {g : Grid} {r c : Nat} (h : findEmpty g = some (r, c)) :
    cell g r c = 0 ∧ r < 9 ∧ c < 9 := by
  have h1 := List.find?_some h
  have h2 := List.mem_of_find?_eq_some h
  rcases mem_positions81.mp h2 with ⟨hr, hc⟩
  exact ⟨by simpa using h1, hr, hc⟩

/-- Number of empty playing cells (a proof-side measure used as recursion
fuel for the backtracking search; not part of the source). -/
def emptyCount (g : Grid) : Nat :=
  (Finset.univ.filter fun p : Fin 9 × Fin 9 => cell g p.1 p.2 = 0).card

theorem emptyCount_le_81 (g : Grid) : emptyCount g ≤ 81 := by
  calc emptyCount g ≤ (Finset.univ : Finset (Fin 9 × Fin 9)).card :=
        Finset.card_filter_le _ _
    _ = 81 := by simp

theorem emptyCount_setCell {g : Grid} {r c : Fin 9} {v : Nat}
    (hg : dims2 g) (h0 : cell g r c = 0) (hv : v ≠ 0) :
    emptyCount (setCell g r c v) = emptyCount g - 1 := by
  unfold emptyCount
  have hset : (Finset.univ.filter fun p : Fin 9 × Fin 9 =>
      cell (setCell g r c v) p.1 p.2 = 0)
      = (Finset.univ.filter fun p : Fin 9 × Fin 9 =>
          cell g p.1 p.2 = 0).erase (r, c) := by
    ext p
    simp only [Finset.mem_filter, Finset.mem_univ, true_and, Finset.mem_erase]
    by_cases hp : p = (r, c)
    · subst hp
      simp only [ne_eq, not_true_eq_false, false_and, iff_false]
      rw [show cell (setCell g r c v) r c = v from
        get2_set2_self 0 v hg r.isLt c.isLt]
      exact hv
    · have hne : (r : Nat) ≠ (p.1 : Nat) ∨ (c : Nat) ≠ (p.2 : Nat) := by
        by_contra hcon
        push_neg at hcon
        apply hp
        have h1 : p.1 = r := Fin.ext hcon.1.symm
        have h2 : p.2 = c := Fin.ext hcon.2.symm
        cases p; simp_all
      rw [show cell (setCell g r c v) p.1 p.2 = cell g p.1 p.2 from
        get2_set2_ne 0 v hne]
      simp [hp]
  rw [hset, Finset.card_erase_of_mem]
  simp only [Finset.mem_filter, Finset.mem_univ, true_and]
  exact h0

theorem emptyCount_pos {g : Grid} {r c : Fin 9} (h0 : cell g r c = 0) :
    1 ≤ emptyCount g := by
  have : (r, c) ∈ Finset.univ.filter
      fun p : Fin 9 × Fin 9 => cell g p.1 p.2 = 0 := by
    simp only [Finset.mem_filter, Finset.mem_univ, true_and]; exact h0
  exact Finset.card_pos.mpr ⟨_, this⟩

theorem emptyCount_setCell_lt {g : Grid} {r c : Fin 9} {v : Nat}
    (hg : dims2 g) (h0 : cell g r c = 0) (hv : v ≠ 0) :
    emptyCount (setCell g r c v) < emptyCount g := by
  rw [emptyCount_setCell hg h0 hv]
  have := emptyCount_pos h0
  omega

/-! ### The constraint checker `isValidPlacement` -/

/-- `isValidPlacement(board, row, col, num)` from sudoku.ts: scans the whole
row, the whole column, and the 3x3 box containing `(row,col)` (including the
target cell itself) and rejects `num` when it appears anywhere there. -/
def isValidPlacement (g : Grid) (row col num : Nat) : Bool :=
  ((List.range 9).all fun j => cell g row j != num) &&
  ((List.range 9).all fun i => cell g i col != num) &&
  ((List.range 3).all fun i => (List.range 3).all fun j =>
    cell g (row / 3 * 3 + i) (col / 3 * 3 + j) != num)

/-- `num` occurs somewhere in row `row`, column `col`, or the 3x3 box of
`(row,col)` — the target cell included. -/
def occursInUnits (g : Grid) (row col num : Nat) : Prop :=
  (∃ j : Fin 9, cell g row j = num) ∨
  (∃ i : Fin 9, cell g i col = num) ∨
  (∃ i j : Fin 3, cell g (row / 3 * 3 + i) (col / 3 * 3 + j) = num)

theorem isValidPlacement_true_iff (g : Grid) (row col num : Nat) :
    isValidPlacement g row col num = true ↔ ¬ occursInUnits g row col num := by
  unfold isValidPlacement occursInUnits
  simp only [Bool.and_eq_true, List.all_eq_true, List.mem_range, bne_iff_ne, ne_eq]
  constructor
  · rintro ⟨⟨h1, h2⟩, h3⟩ (⟨j, hj⟩ | ⟨i, hi⟩ | ⟨i, j, hij⟩)
    · exact h1 j j.isLt hj
    · exact h2 i i.isLt hi
    · exact h3 i i.isLt j j.isLt hij
  · intro h
    refine ⟨⟨fun j hj hcell => h (Or.inl ⟨⟨j, hj⟩, hcell⟩),
      fun i hi hcell => h (Or.inr (Or.inl ⟨⟨i, hi⟩, hcell⟩))⟩,
      fun i hi j hj hcell => h (Or.inr (Or.inr ⟨⟨i, hi⟩, ⟨j, hj⟩, hcell⟩))⟩

theorem isValidPlacement_false_iff (g : Grid) (row col num : Nat) :
    isValidPlacement g row col num = false ↔ occursInUnits g row col num := by
  have h' := isValidPlacement_true_iff g row col num
  cases h : isValidPlacement g row col num <;> simp [h] at h' ⊢ <;> tauto

/-! ### The mathematical notion of a completion

A candidate completion is a total assignment `Fin 9 → Fin 9 → Fin 9`; the
value written in cell `(r,c)` is `(f r c).val + 1 ∈ [1,9]`.  A completion of
a grid `g` is a valid assignment agreeing with every non-empty cell of `g`.
This is the specification-side meaning of "completion satisfying the
row/column/box uniqueness constraints"; it is what the code's solution
counter is measured against. -/

/-- Total assignments of the 81 cells with values 1..9 (encoded 0..8). -/
abbrev Assignment := Fin 9 → Fin 9 → Fin 9

/-- Two cell positions share a row, a column, or a 3x3 box. -/
def sameUnit (r c r' c' : Nat) : Prop :=
  r = r' ∨ c = c' ∨ (r / 3 = r' / 3 ∧ c / 3 = c' / 3)

instance (r c r' c' : Nat) : Decidable (sameUnit r c r' c') := by
  unfold sameUnit; infer_instance

/-- The Sudoku constraints for a total assignment: distinct cells of a common
unit hold distinct values. -/
def validA (f : Assignment) : Prop :=
  ∀ r c r' c' : Fin 9, sameUnit r c r' c' → (r.val ≠ r'.val ∨ c.val ≠ c'.val) →
    f r c ≠ f r' c'

/-- The assignment agrees with every non-empty cell of the grid. -/
def agreesWith (g : Grid) (f : Assignment) : Prop :=
  ∀ r c : Fin 9, cell g r c ≠ 0 → cell g r c = (f r c).val + 1

instance : DecidablePred validA := fun _ => by
  unfold validA; infer_instance

instance (g : Grid) : Decidable (agreesWith g f) := by
  unfold agreesWith; infer_instance

/-- All completions of a grid: valid total assignments extending it. -/
def completions (g : Grid) : Finset Assignment :=
  Finset.univ.filter fun f => validA f ∧ agreesWith g f

/-- The number of completions of a grid; the specification value that
`countSolutions` approximates (capped at 2 by its early exit). -/
def numSolutions (g : Grid) : Nat := (completions g).card

theorem mem_completions {g : Grid} {f : Assignment} :
    f ∈ completions g ↔ validA f ∧ agreesWith g f := by
  unfold completions
  simp

/-- The assignment read off a full grid with entries in 1..9. -/
def assignOf (g : Grid) : Assignment :=
  fun r c => ⟨(cell g r c - 1) % 9, Nat.mod_lt _ (by norm_num)⟩

/-- Pairwise consistency of the non-empty cells of a (possibly partial) grid:
no value occurs twice in a row, column, or box. -/
def consistent (g : Grid) : Prop :=
  ∀ r c r' c' : Fin 9, sameUnit r c r' c' → (r.val ≠ r'.val ∨ c.val ≠ c'.val) →
    cell g r c ≠ 0 → cell g r c ≠ cell g r' c'

instance : DecidablePred consistent := fun _ => by
  unfold consistent; infer_instance

theorem assignOf_val {g : Grid} {r c : Fin 9}
    (hle : cell g r c ≤ 9) (hne : cell g r c ≠ 0) :
    (assignOf g r c).val + 1 = cell g r c := by
  unfold assignOf
  simp only
  rw [Nat.mod_eq_of_lt (by omega)]
  omega

theorem validA_assignOf {g : Grid} (hfull : fullGrid g) (hle : entriesLe9 g)
    (hcons : consistent g) : validA (assignOf g) := by
  intro r c r' c' hu hne heq
  have h1 : (assignOf g r c).val + 1 = cell g r c :=
    assignOf_val (hle r c) (hfull r c)
  have h2 : (assignOf g r' c').val + 1 = cell g r' c' :=
    assignOf_val (hle r' c') (hfull r' c')
  have : cell g r c = cell g r' c' := by
    rw [← h1, ← h2, heq]
  exact hcons r c r' c' hu hne (hfull r c) this

theorem agreesWith_assignOf {g : Grid} (hle : entriesLe9 g) :
    agreesWith g (assignOf g) := by
  intro r c hne
  exact (assignOf_val (hle r c) hne).symm

/-- A full consistent grid has exactly itself as completion. -/
theorem completions_of_full {g : Grid} (hfull : fullGrid g) (hle : entriesLe9 g)
    (hcons : consistent g) : completions g = {assignOf g} := by
  ext f
  rw [mem_completions, Finset.mem_singleton]
  constructor
  · rintro ⟨hv, ha⟩
    funext r c
    have h1 := ha r c (hfull r c)
    have h2 : (assignOf g r c).val + 1 = cell g r c :=
      assignOf_val (hle r c) (hfull r c)
    exact Fin.ext (by omega)
  · rintro rfl
    exact ⟨validA_assignOf hfull hle hcons, agreesWith_assignOf hle⟩

/-! ### Behaviour of `setCell` on completions -/

theorem cell_setCell_self {g : Grid} {r c : Fin 9} {v : Nat} (hg : dims2 g) :
    cell (setCell g r c v) r c = v :=
  get2_set2_self 0 v hg r.isLt c.isLt

theorem cell_setCell_ne {g : Grid} {r c : Nat} {v : Nat} {r' c' : Nat}
    (h : r ≠ r' ∨ c ≠ c') :
    cell (setCell g r c v) r' c' = cell g r' c' :=
  get2_set2_ne 0 v h

theorem agreesWith_setCell_iff {g : Grid} {r c : Fin 9} {v : Fin 9}
    {f : Assignment} (hg : dims2 g) (h0 : cell g r c = 0) :
    agreesWith (setCell g r c (v.val + 1)) f ↔ agreesWith g f ∧ f r c = v := by
  constructor
  · intro h
    constructor
    · intro r' c' hne
      by_cases hp : (r : Nat) = (r' : Nat) ∧ (c : Nat) = (c' : Nat)
      · exfalso
        have hr : r' = r := Fin.ext hp.1.symm
        have hc : c' = c := Fin.ext hp.2.symm
        rw [hr, hc] at hne
        exact hne h0
      · have hcase : (r : Nat) ≠ (r' : Nat) ∨ (c : Nat) ≠ (c' : Nat) := by tauto
        have := h r' c'
        rw [cell_setCell_ne hcase] at this
        exact this hne
    · have := h r c
      rw [cell_setCell_self hg] at this
      have hv : (v.val + 1 : Nat) = (f r c).val + 1 := this (by omega)
      exact Fin.ext (by omega)
  · rintro ⟨ha, hv⟩
    intro r' c' hne
    by_cases hp : (r : Nat) = (r' : Nat) ∧ (c : Nat) = (c' : Nat)
    · have hr : r' = r := Fin.ext hp.1.symm
      have hc : c' = c := Fin.ext hp.2.symm
      subst hr; subst hc
      rw [cell_setCell_self hg, hv]
    · have hcase : (r : Nat) ≠ (r' : Nat) ∨ (c : Nat) ≠ (c' : Nat) := by tauto
      rw [cell_setCell_ne hcase] at hne ⊢
      exact ha r' c' hne

theorem completions_setCell {g : Grid} {r c : Fin 9} {v : Fin 9}
    (hg : dims2 g) (h0 : cell g r c = 0) :
    completions (setCell g r c (v.val + 1))
      = (completions g).filter fun f => f r c = v := by
  ext f
  rw [Finset.mem_filter, mem_completions, mem_completions,
    agreesWith_setCell_iff hg h0]
  tauto

theorem sameUnit_symm {r c r' c' : Nat} (h : sameUnit r c r' c') :
    sameUnit r' c' r c := by
  unfold sameUnit at *
  tauto

theorem occurs_of_sameUnit {g : Grid} {n : Nat} (r c : Fin 9) (r' c' : Fin 9)
    (hu : sameUnit r c r' c') (hv : cell g r' c' = n) :
    occursInUnits g r c n := by
  rcases hu with h | h | ⟨h1, h2⟩
  · exact Or.inl ⟨c', by rw [h]; exact hv⟩
  · exact Or.inr (Or.inl ⟨r', by rw [h]; exact hv⟩)
  · refine Or.inr (Or.inr ⟨⟨r'.val % 3, by omega⟩, ⟨c'.val % 3, by omega⟩, ?_⟩)
    have hr : (r : Nat) / 3 * 3 + (r' : Nat) % 3 = (r' : Nat) := by omega
    have hc : (c : Nat) / 3 * 3 + (c' : Nat) % 3 = (c' : Nat) := by omega
    simpa [hr, hc] using hv

theorem consistent_setCell {g : Grid} {r c : Fin 9} {n : Nat}
    (hg : dims2 g) (hcons : consistent g) (h0 : cell g r c = 0)
    (hvalid : isValidPlacement g r c n = true) :
    consistent (setCell g r c n) := by
  have hnotocc := (isValidPlacement_true_iff g r c n).mp hvalid
  intro r1 c1 r2 c2 hu hne h1 heq
  by_cases hp1 : r1 = r ∧ c1 = c
  · obtain ⟨rfl, rfl⟩ := hp1
    by_cases hp2 : r2 = r1 ∧ c2 = c1
    · obtain ⟨rfl, rfl⟩ := hp2
      simp at hne
    · have hcase2 : (r1 : Nat) ≠ (r2 : Nat) ∨ (c1 : Nat) ≠ (c2 : Nat) := by
        rcases not_and_or.mp hp2 with h | h
        · exact Or.inl fun hv => h (Fin.ext hv.symm)
        · exact Or.inr fun hv => h (Fin.ext hv.symm)
      rw [cell_setCell_self hg] at h1 heq
      rw [cell_setCell_ne hcase2] at heq
      exact hnotocc (occurs_of_sameUnit r1 c1 r2 c2 hu heq.symm)
  · have hcase1 : (r : Nat) ≠ (r1 : Nat) ∨ (c : Nat) ≠ (c1 : Nat) := by
      rcases not_and_or.mp hp1 with h | h
      · exact Or.inl fun hv => h (Fin.ext hv.symm)
      · exact Or.inr fun hv => h (Fin.ext hv.symm)
    rw [cell_setCell_ne hcase1] at h1 heq
    by_cases hp2 : r2 = r ∧ c2 = c
    · obtain ⟨rfl, rfl⟩ := hp2
      rw [cell_setCell_self hg] at heq
      exact hnotocc
        (occurs_of_sameUnit r2 c2 r1 c1 (sameUnit_symm hu) heq)
    · have hcase2 : (r : Nat) ≠ (r2 : Nat) ∨ (c : Nat) ≠ (c2 : Nat) := by
        rcases not_and_or.mp hp2 with h | h
        · exact Or.inl fun hv => h (Fin.ext hv.symm)
        · exact Or.inr fun hv => h (Fin.ext hv.symm)
      rw [cell_setCell_ne hcase2] at heq
      exact hcons r1 c1 r2 c2 hu hne h1 heq

theorem cell_setCell_self_cases (g : Grid) (r c v : Nat) :
    cell (setCell g r c v) r c = v ∨ cell (setCell g r c v) r c = cell g r c := by
  unfold cell get2 setCell set2
  by_cases hr : r < g.length
  · by_cases hc : c < (g.getD r []).length
    · left
      rw [getD_set_self _ _ _ _ hr, getD_set_self _ _ _ _ hc]
    · right
      rw [getD_set_self _ _ _ _ hr, set_of_length_le _ _ _ (by omega)]
  · right
    rw [set_of_length_le _ _ _ (by omega)]

theorem cell_setZero_cases (g : Grid) (r c r' c' : Nat) :
    cell (setCell g r c 0) r' c' = 0 ∨
      cell (setCell g r c 0) r' c' = cell g r' c' := by
  by_cases hp : r = r' ∧ c = c'
  · obtain ⟨rfl, rfl⟩ := hp
    exact cell_setCell_self_cases g r c 0
  · exact Or.inr (cell_setCell_ne (not_and_or.mp hp))

theorem consistent_setZero {g : Grid} {r c : Nat}
    (hcons : consistent g) : consistent (setCell g r c 0) := by
  intro r1 c1 r2 c2 hu hne h1 heq
  rcases cell_setZero_cases g r c r1 c1 with e1 | e1
  · exact h1 e1
  · rcases cell_setZero_cases g r c r2 c2 with e2 | e2
    · rw [e1] at h1 heq
      rw [e2] at heq
      exact h1 heq
    · rw [e1] at h1 heq
      rw [e2] at heq
      exact hcons r1 c1 r2 c2 hu hne h1 heq

theorem entriesLe9_setCell {g : Grid} {r c v : Nat} (hle : entriesLe9 g)
    (hv : v ≤ 9) : entriesLe9 (setCell g r c v) := by
  intro r' c'
  by_cases hp : r = (r' : Nat) ∧ c = (c' : Nat)
  · obtain ⟨h1, h2⟩ := hp
    rw [← h1, ← h2]
    rcases cell_setCell_self_cases g r c v with h | h
    · rw [h]; exact hv
    · rw [h]
      have := hle r' c'
      rw [← h1, ← h2] at this
      exact this
  · rw [cell_setCell_ne (not_and_or.mp hp)]
    exact hle r' c'

/-- A peer of `(r,c)` carrying value `n` exists whenever the placement scan
rejects `n` at an empty `(r,c)`. -/
theorem exists_peer_of_occurs {g : Grid} {r c : Fin 9} {n : Nat}
    (h0 : cell g r c = 0) (hn : n ≠ 0) (hocc : occursInUnits g r c n) :
    ∃ r' c' : Fin 9, sameUnit r c r' c' ∧ cell g r' c' = n ∧
      ((r : Nat) ≠ (r' : Nat) ∨ (c : Nat) ≠ (c' : Nat)) := by
  have hne_self : ∀ r' c' : Fin 9, cell g r' c' = n →
      (r : Nat) ≠ (r' : Nat) ∨ (c : Nat) ≠ (c' : Nat) := by
    intro r' c' hv
    by_contra hcon
    push_neg at hcon
    have hr : r' = r := Fin.ext hcon.1.symm
    have hc : c' = c := Fin.ext hcon.2.symm
    rw [hr, hc, h0] at hv
    exact hn hv.symm
  rcases hocc with ⟨j, hj⟩ | ⟨i, hi⟩ | ⟨i, j, hij⟩
  · exact ⟨r, j, Or.inl rfl, hj, hne_self r j hj⟩
  · exact ⟨i, c, Or.inr (Or.inl rfl), hi, hne_self i c hi⟩
  · have hi3 : (i : Nat) < 3 := i.isLt
    have hj3 : (j : Nat) < 3 := j.isLt
    have hr9 : (r : Nat) < 9 := r.isLt
    have hc9 : (c : Nat) < 9 := c.isLt
    refine ⟨⟨(r : Nat) / 3 * 3 + (i : Nat), by omega⟩,
      ⟨(c : Nat) / 3 * 3 + (j : Nat), by omega⟩,
      Or.inr (Or.inr ⟨?_, ?_⟩), hij, hne_self _ _ hij⟩
    · show (r : Nat) / 3 = ((r : Nat) / 3 * 3 + (i : Nat)) / 3
      omega
    · show (c : Nat) / 3 = ((c : Nat) / 3 * 3 + (j : Nat)) / 3
      omega

/-- Placing a value rejected by `isValidPlacement` kills all completions. -/
theorem completions_empty_of_invalid {g : Grid} {r c : Fin 9} {n : Nat}
    (hg : dims2 g) (h0 : cell g r c = 0) (hn1 : 1 ≤ n)
    (hinvalid : isValidPlacement g r c n = false) :
    completions (setCell g r c n) = ∅ := by
  have hocc := (isValidPlacement_false_iff g r c n).mp hinvalid
  obtain ⟨r', c', hu, hv, hne⟩ := exists_peer_of_occurs h0 (by omega) hocc
  rw [Finset.eq_empty_iff_forall_not_mem]
  intro f hf
  rw [mem_completions] at hf
  obtain ⟨hvalid, hagree⟩ := hf
  have hself : cell (setCell g r c n) r c = n := cell_setCell_self hg
  have hpeer : cell (setCell g r c n) r' c' = n := by
    rw [cell_setCell_ne hne]; exact hv
  have e1 : (n : Nat) = (f r c).val + 1 := by
    have := hagree r c
    rw [hself] at this
    exact this (by omega)
  have e2 : (n : Nat) = (f r' c').val + 1 := by
    have := hagree r' c'
    rw [hpeer] at this
    exact this (by omega)
  have : f r c = f r' c' := Fin.ext (by omega)
  exact hvalid r c r' c' hu hne this

/-! ### The capped solution counter of `hasUniqueSolution`

`countSolutions` mutates a shared `solutionCount` and board; here the count
is threaded explicitly and the recursion is bounded by `fuel` (each recursive
call fills one empty cell, so any `fuel >= emptyCount g` gives the untruncated
behaviour; `hasUniqueSolution` uses 81). -/

/-- The `for (num = 1; num <= 9; ...)` loop of `countSolutions`: place each
valid candidate, recurse (the recursive call is the `rec` argument), and
stop early once the count exceeds 1. -/
def csGo (rec : Grid → Nat → Nat) (g : Grid) (r c : Nat) :
    List Nat → Nat → Nat
  | [], count => count
  | n :: ns, count =>
    if 1 < count then count
    else if isValidPlacement g r c n then
      csGo rec g r c ns (rec (setCell g r c n) count)
    else csGo rec g r c ns count

/-- `countSolutions(board)` of `hasUniqueSolution` acting on accumulated
count `count`: early exit once the count exceeds 1, find the first empty
cell, try candidates 1..9 there, and count one completion when no empty
cell remains.  Recursion is by the explicit fuel (each call fills an empty
cell, so `fuel >= emptyCount g` gives the untruncated behaviour). -/
def cs (fuel : Nat) : Grid → Nat → Nat :=
  Nat.rec
    (motive := fun _ => Grid → Nat → Nat)
    (fun g count =>
      if 1 < count then count
      else
        match findEmpty g with
        | none => count + 1
        | some _ => count)
    (fun _ ih g count =>
      if 1 < count then count
      else
        match findEmpty g with
        | none => count + 1
        | some (r, c) => csGo ih g r c [1, 2, 3, 4, 5, 6, 7, 8, 9] count)
    fuel

theorem cs_zero (g : Grid) (count : Nat) :
    cs 0 g count
      = if 1 < count then count
        else
          match findEmpty g with
          | none => count + 1
          | some _ => count := rfl

theorem cs_succ (fuel : Nat) (g : Grid) (count : Nat) :
    cs (fuel + 1) g count
      = if 1 < count then count
        else
          match findEmpty g with
          | none => count + 1
          | some (r, c) => csGo (cs fuel) g r c [1, 2, 3, 4, 5, 6, 7, 8, 9] count
    := rfl

/-- `hasUniqueSolution(board)` from sudoku.ts. -/
def hasUniqueSolution (g : Grid) : Bool :=
  cs 81 g 0 == 1

/-- Summing a function of the nine candidate values, Fin-indexed versus
list-indexed. -/
theorem sum_univ_nine_map (F : Nat → Nat) :
    (∑ v : Fin 9, F (v.val + 1)) = ([1, 2, 3, 4, 5, 6, 7, 8, 9].map F).sum := by
  simp [Fin.sum_univ_succ]

/-- The completions of `g` split along the 9 possible values of one of its
empty cells. -/
theorem numSolutions_branch {g : Grid} {r c : Fin 9}
    (hg : dims2 g) (h0 : cell g r c = 0) :
    numSolutions g
      = (([1, 2, 3, 4, 5, 6, 7, 8, 9].map
          fun n => numSolutions (setCell g r c n)).sum) := by
  have hfib : numSolutions g
      = ∑ v : Fin 9, ((completions g).filter fun f => f r c = v).card := by
    unfold numSolutions
    exact Finset.card_eq_sum_card_fiberwise fun f _ => Finset.mem_univ _
  have hstep : ∀ v : Fin 9,
      ((completions g).filter fun f => f r c = v).card
        = numSolutions (setCell g r c (v.val + 1)) := by
    intro v
    unfold numSolutions
    rw [completions_setCell hg h0]
  rw [hfib]
  have hsum : ∑ v : Fin 9, ((completions g).filter fun f => f r c = v).card
      = ∑ v : Fin 9, numSolutions (setCell g r c (v.val + 1)) :=
    Finset.sum_congr rfl fun v _ => hstep v
  rw [hsum]
  exact sum_univ_nine_map fun n => numSolutions (setCell g r c n)

/-- The inner candidate loop, related to the branch sum, assuming the
correctness of the recursive call on grids with at most `fuel` empty
cells. -/
theorem csGo_spec (rec : Grid → Nat → Nat) (fuel : Nat) {g : Grid}
    {r c : Fin 9}
    (hg : dims2 g) (hle : entriesLe9 g) (hcons : consistent g)
    (h0 : cell g r c = 0) (hfuel : emptyCount g ≤ fuel + 1)
    (IH : ∀ (g' : Grid) (count' : Nat), dims2 g' → entriesLe9 g' →
      consistent g' → emptyCount g' ≤ fuel → count' ≤ 2 →
      rec g' count' = min (count' + numSolutions g') 2) :
    ∀ (nums : List Nat) (count : Nat), (∀ n ∈ nums, 1 ≤ n ∧ n ≤ 9) →
      count ≤ 2 →
      csGo rec g r c nums count
        = min (count + (nums.map fun n => numSolutions (setCell g r c n)).sum) 2 := by
  intro nums
  induction nums with
  | nil =>
    intro count _ hcount
    simp only [csGo, List.map_nil, List.sum_nil]
    omega
  | cons n ns ihn =>
    intro count hmem hcount
    have hn := hmem n (List.mem_cons_self n ns)
    have hns : ∀ m ∈ ns, 1 ≤ m ∧ m ≤ 9 := fun m hm =>
      hmem m (List.mem_cons_of_mem _ hm)
    simp only [csGo, List.map_cons, List.sum_cons]
    by_cases hbig : 1 < count
    · rw [if_pos hbig]
      omega
    · rw [if_neg hbig]
      by_cases hvalid : isValidPlacement g r c n = true
      · rw [if_pos hvalid]
        have hg' : dims2 (setCell g r c n) := dims2_set2 hg
        have hle' : entriesLe9 (setCell g r c n) := entriesLe9_setCell hle hn.2
        have hcons' : consistent (setCell g r c n) :=
          consistent_setCell hg hcons h0 hvalid
        have hec : emptyCount (setCell g r c n) = emptyCount g - 1 :=
          emptyCount_setCell hg h0 (by omega)
        have hpos := emptyCount_pos h0
        have hrec : rec (setCell g r c n) count
            = min (count + numSolutions (setCell g r c n)) 2 :=
          IH _ _ hg' hle' hcons' (by omega) (by omega)
        have hacc : min (count + numSolutions (setCell g r c n)) 2 ≤ 2 := by
          omega
        rw [hrec, ihn _ hns hacc]
        omega
      · rw [if_neg hvalid]
        have hzero : numSolutions (setCell g r c n) = 0 := by
          unfold numSolutions
          rw [completions_empty_of_invalid hg h0 hn.1
            (by revert hvalid; cases isValidPlacement g r c n <;> simp)]
          simp
        rw [ihn _ hns hcount]
        omega

/-- Master theorem for the capped counter: with adequate fuel, on a
well-formed consistent grid, `countSolutions` computes the true number of
completions truncated at 2 (on top of the accumulated count). -/
theorem cs_spec (fuel : Nat) :
    ∀ (g : Grid) (count : Nat), dims2 g → entriesLe9 g → consistent g →
      emptyCount g ≤ fuel → count ≤ 2 →
      cs fuel g count = min (count + numSolutions g) 2 := by
  induction fuel with
  | zero =>
    intro g count hg hle hcons hfuel hcount
    have hfull : fullGrid g := by
      rw [← findEmpty_none_iff]
      cases hfe : findEmpty g with
      | none => rfl
      | some p =>
        exfalso
        obtain ⟨r, c⟩ := p
        obtain ⟨h0, hr, hc⟩ := findEmpty_some hfe
        have := emptyCount_pos (r := ⟨r, hr⟩) (c := ⟨c, hc⟩) h0
        omega
    have hsols : numSolutions g = 1 := by
      unfold numSolutions
      rw [completions_of_full hfull hle hcons]
      simp
    have hfe : findEmpty g = none := findEmpty_none_iff.mpr hfull
    have hred : cs 0 g count = if 1 < count then count else count + 1 := by
      rw [cs_zero, hfe]
    rw [hred, hsols]
    split
    · omega
    · omega
  | succ fuel' IH =>
    intro g count hg hle hcons hfuel hcount
    cases hfe : findEmpty g with
    | none =>
      have hfull := findEmpty_none_iff.mp hfe
      have hsols : numSolutions g = 1 := by
        unfold numSolutions
        rw [completions_of_full hfull hle hcons]
        simp
      have hred : cs (fuel' + 1) g count
          = if 1 < count then count else count + 1 := by
        rw [cs_succ, hfe]
      rw [hred, hsols]
      split
      · omega
      · omega
    | some p =>
      obtain ⟨r, c⟩ := p
      obtain ⟨h0, hr, hc⟩ := findEmpty_some hfe
      have hred : cs (fuel' + 1) g count
          = if 1 < count then count
            else csGo (cs fuel') g r c [1, 2, 3, 4, 5, 6, 7, 8, 9] count := by
        rw [cs_succ, hfe]
      rw [hred]
      by_cases hbig : 1 < count
      · rw [if_pos hbig]
        omega
      · rw [if_neg hbig]
        have hgo := csGo_spec (cs fuel') fuel' (r := ⟨r, hr⟩) (c := ⟨c, hc⟩)
          hg hle hcons h0 hfuel IH [1, 2, 3, 4, 5, 6, 7, 8, 9] count
          (by intro n hn; simp at hn; omega) hcount
        have hbr := numSolutions_branch (r := ⟨r, hr⟩) (c := ⟨c, hc⟩) hg h0
        exact hgo.trans (by rw [← hbr])

/-! ### Concrete grids used as test vectors -/

/-- The all-empty board `generateSudoku` starts from. -/
def emptyGrid : Grid := List.replicate 9 (List.replicate 9 0)

/-- A full board every cell of which holds 1 (obviously not a valid
solution: every unit repeats 1). -/
def allOnes : Grid := List.replicate 9 (List.replicate 9 1)

/-- A concrete valid complete solution grid (cyclic pattern). -/
def gridS0 : Grid :=
  [[1, 2, 3, 4, 5, 6, 7, 8, 9],
   [4, 5, 6, 7, 8, 9, 1, 2, 3],
   [7, 8, 9, 1, 2, 3, 4, 5, 6],
   [2, 3, 4, 5, 6, 7, 8, 9, 1],
   [5, 6, 7, 8, 9, 1, 2, 3, 4],
   [8, 9, 1, 2, 3, 4, 5, 6, 7],
   [3, 4, 5, 6, 7, 8, 9, 1, 2],
   [6, 7, 8, 9, 1, 2, 3, 4, 5],
   [9, 1, 2, 3, 4, 5, 6, 7, 8]]

/-- `gridS0` with the six cells of rows 0-1, columns 0/3/6 interchanged:
a second valid completion of the puzzle obtained by clearing those cells. -/
def gridS1 : Grid :=
  [[4, 2, 3, 7, 5, 6, 1, 8, 9],
   [1, 5, 6, 4, 8, 9, 7, 2, 3],
   [7, 8, 9, 1, 2, 3, 4, 5, 6],
   [2, 3, 4, 5, 6, 7, 8, 9, 1],
   [5, 6, 7, 8, 9, 1, 2, 3, 4],
   [8, 9, 1, 2, 3, 4, 5, 6, 7],
   [3, 4, 5, 6, 7, 8, 9, 1, 2],
   [6, 7, 8, 9, 1, 2, 3, 4, 5],
   [9, 1, 2, 3, 4, 5, 6, 7, 8]]

/-! ### Claim C6 -/

/-- The all-ones full grid has no completion at all: it already violates
the constraints and is its own only candidate. -/
theorem completions_allOnes : completions allOnes = ∅ := by
  rw [Finset.eq_empty_iff_forall_not_mem]
  intro f hf
  rw [mem_completions] at hf
  obtain ⟨hv, ha⟩ := hf
  have h1 : cell allOnes 0 0 = 1 := by decide
  have h2 : cell allOnes 0 1 = 1 := by decide
  have e1 : (1 : Nat) = (f 0 0).val + 1 := h1 ▸ ha 0 0 (by decide)
  have e2 : (1 : Nat) = (f 0 1).val + 1 := h2 ▸ ha 0 1 (by decide)
  have : f 0 0 = f 0 1 := Fin.ext (by omega)
  exact hv 0 0 0 1 (Or.inl rfl) (Or.inr (by decide)) this

/-- Claim C6, counterexample: on the all-ones grid (entries in [0,9]),
`hasUniqueSolution` returns true although the grid has zero completions
satisfying the row/column/box constraints, so the claimed equivalence with
"exactly one completion" fails without a consistency hypothesis. -/
theorem claim_C6_counterexample :
    hasUniqueSolution allOnes = true ∧ numSolutions allOnes = 0 := by
  constructor
  · decide
  · unfold numSolutions
    rw [completions_allOnes]
    rfl

/-- On well-formed consistent grids the capped counter decides uniqueness
of the completion. -/
theorem hasUnique_iff {g : Grid} (hg : dims2 g) (hle : entriesLe9 g)
    (hcons : consistent g) :
    hasUniqueSolution g = true ↔ numSolutions g = 1 := by
  unfold hasUniqueSolution
  rw [cs_spec 81 g 0 hg hle hcons (emptyCount_le_81 g) (by omega)]
  rw [beq_iff_eq]
  omega

/-- Claim C6 (amended): for every 9x9 grid with entries in [0,9] whose
non-empty cells are themselves free of row/column/box duplicates,
`hasUniqueSolution(grid)` returns true if and only if the grid has exactly
one completion satisfying the Sudoku constraints; the early exit of the
internal counter past 1 does not change this answer. -/
theorem claim_C6 (g : Grid) (hg : dims2 g) (hle : entriesLe9 g)
    (hcons : consistent g) :
    hasUniqueSolution g = true ↔ numSolutions g = 1 :=
  hasUnique_iff hg hle hcons

/-- Witness for C6: the amended equivalence applied to the concrete full
grid `gridS0`, whose hypotheses hold by evaluation. -/
theorem claim_C6_witness :
    dims2 gridS0 ∧ entriesLe9 gridS0 ∧ consistent gridS0 ∧
      (hasUniqueSolution gridS0 = true ↔ numSolutions gridS0 = 1) :=
  ⟨by decide, by decide, by decide,
    claim_C6 gridS0 (by decide) (by decide) (by decide)⟩

/-! ### Claim C9 -/

/-- The spec's reading of the constraint check (claim C9): `num` already
appears at some cell OTHER THAN `(row,col)` itself in that row, column, or
box.  Stated from the claim's words, to be compared with the code's scan. -/
def occursElsewhere (g : Grid) (row col num : Nat) : Prop :=
  (∃ j : Fin 9, (j : Nat) ≠ col ∧ cell g row j = num) ∨
  (∃ i : Fin 9, (i : Nat) ≠ row ∧ cell g i col = num) ∨
  (∃ i j : Fin 3,
    (row / 3 * 3 + (i : Nat) ≠ row ∨ col / 3 * 3 + (j : Nat) ≠ col) ∧
    cell g (row / 3 * 3 + i) (col / 3 * 3 + j) = num)

instance (g : Grid) (row col num : Nat) :
    Decidable (occursElsewhere g row col num) := by
  unfold occursElsewhere; infer_instance

/-- Claim C9, counterexample: on the grid whose only entry is a 5 at
`(0,0)`, the value 5 appears nowhere other than the target cell itself, yet
`isValidPlacement(grid, 0, 0, 5)` returns false — the scan does not exclude
the target cell, contradicting the claim's "elsewhere ... true otherwise". -/
theorem claim_C9_counterexample :
    isValidPlacement (setCell emptyGrid 0 0 5) 0 0 5 = false ∧
      ¬ occursElsewhere (setCell emptyGrid 0 0 5) 0 0 5 := by
  constructor
  · decide
  · decide

/-- Claim C9 (amended): for every grid, row/column in 0..8 and value,
`isValidPlacement` returns false exactly when the value already occurs
anywhere in the target row, the target column, or the 3x3 box — including
at `(row,col)` itself; it returns true otherwise, and cells holding 0 never
cause a conflict (a conflict is an occurrence of the value itself). -/
theorem claim_C9 (g : Grid) (row col num : Nat) :
    isValidPlacement g row col num = false ↔ occursInUnits g row col num :=
  isValidPlacement_false_iff g row col num

/-! ### Claim C1: the two carving paths -/

/-- `createPuzzle(solution, filledCells)` from server/routes.ts (the room
creation path): copy the solution and blindly clear the first
`81 - filledCells` entries of the shuffled position list — no uniqueness
check at all.  The `Math.random` shuffle outcome is the `positions`
argument. -/
def createPuzzle (solution : Grid) (filledCells : Nat)
    (positions : List (Nat × Nat)) : Grid :=
  (positions.take (81 - filledCells)).foldl
    (fun puzzle p => setCell puzzle p.1 p.2 0) solution

/-- The removal loop of `generateLogicalSudoku` (sudoku.ts): clear the next
shuffled position, keep the clearing only if `hasUniqueSolution` still
holds (otherwise restore the original value), and stop once
`cellsToRemove` cells have been removed. -/
def glsLoop : List (Nat × Nat) → Nat → Nat → Grid → Grid
  | [], _, _, puzzle => puzzle
  | (r, c) :: rest, cellsToRemove, removed, puzzle =>
    if cellsToRemove ≤ removed then puzzle
    else
      let attempt := setCell puzzle r c 0
      if hasUniqueSolution attempt then
        glsLoop rest cellsToRemove (removed + 1) attempt
      else glsLoop rest cellsToRemove removed puzzle

/-- `generateLogicalSudoku(solution, filledCells)` from sudoku.ts, the
`Math.random` shuffle of the 81 positions being the `positions` input. -/
def generateLogicalSudoku (solution : Grid) (filledCells : Nat)
    (positions : List (Nat × Nat)) : Grid :=
  glsLoop positions (81 - filledCells) 0 solution

theorem set_getD_self (l : List α) (n : Nat) (d : α) (h : n < l.length) :
    l.set n (l.getD n d) = l := by
  induction l generalizing n with
  | nil => rfl
  | cons a t ih =>
    cases n with
    | zero => rfl
    | succ m => simpa using ih m (by simpa using h)

/-- Clearing an out-of-range position does not change a well-formed grid. -/
theorem setCell_out_of_range {g : Grid} {r c v : Nat} (hg : dims2 g)
    (h : 9 ≤ r ∨ 9 ≤ c) : setCell g r c v = g := by
  rcases h with h | h
  · unfold setCell set2
    exact set_of_length_le _ _ _ (by rw [hg.1]; omega)
  · by_cases hr : r < 9
    · unfold setCell set2
      have hrow : (g.getD r []).set c v = g.getD r [] :=
        set_of_length_le _ _ _ (by rw [rowLen_of_dims2 hg hr]; omega)
      rw [hrow]
      exact set_getD_self _ _ _ (by rw [hg.1]; exact hr)
    · unfold setCell set2
      exact set_of_length_le _ _ _ (by rw [hg.1]; omega)

/-- Invariant preserved along the carving loop of `generateLogicalSudoku`:
if the current puzzle is a well-formed consistent sub-grid of the solution
`S` with `S`'s read-off assignment as its one completion, the final puzzle
is too. -/
theorem glsLoop_inv {S : Grid} (hS : entriesLe9 S) :
    ∀ (positions : List (Nat × Nat)) (k removed : Nat) (puzzle : Grid),
      dims2 puzzle → entriesLe9 puzzle → consistent puzzle →
      (∀ r c : Fin 9, cell puzzle r c ≠ 0 → cell puzzle r c = cell S r c) →
      completions puzzle = {assignOf S} →
      completions (glsLoop positions k removed puzzle) = {assignOf S} := by
  intro positions
  induction positions with
  | nil =>
    intro k removed puzzle _ _ _ _ hcomp
    exact hcomp
  | cons p rest ih =>
    obtain ⟨r, c⟩ := p
    intro k removed puzzle hg hle hcons hsub hcomp
    rw [glsLoop]
    by_cases hstop : k ≤ removed
    · rw [if_pos hstop]
      exact hcomp
    · rw [if_neg hstop]
      simp only
      by_cases hrange : 9 ≤ r ∨ 9 ≤ c
      · rw [setCell_out_of_range hg hrange]
        by_cases hu : hasUniqueSolution puzzle = true
        · rw [if_pos hu]
          exact ih k (removed + 1) puzzle hg hle hcons hsub hcomp
        · rw [if_neg hu]
          exact ih k removed puzzle hg hle hcons hsub hcomp
      · push_neg at hrange
        set attempt := setCell puzzle r c 0 with hatt
        have hg' : dims2 attempt := dims2_set2 hg
        have hle' : entriesLe9 attempt := entriesLe9_setCell hle (by omega)
        have hcons' : consistent attempt := consistent_setZero hcons
        have hsub' : ∀ r' c' : Fin 9, cell attempt r' c' ≠ 0 →
            cell attempt r' c' = cell S r' c' := by
          intro r' c' hne
          by_cases hp : r = (r' : Nat) ∧ c = (c' : Nat)
          · exfalso
            apply hne
            obtain ⟨h1, h2⟩ := hp
            rw [hatt, ← h1, ← h2]
            exact cell_setCell_self (r := ⟨r, hrange.1⟩) (c := ⟨c, hrange.2⟩) hg
          · rw [hatt, cell_setCell_ne (not_and_or.mp hp)] at hne ⊢
            exact hsub r' c' hne
        by_cases hu : hasUniqueSolution attempt = true
        · rw [if_pos hu]
          have hone : numSolutions attempt = 1 :=
            (hasUnique_iff hg' hle' hcons').mp hu
          have hmem : assignOf S ∈ completions attempt := by
            rw [mem_completions]
            have hSmem : assignOf S ∈ completions puzzle := by
              rw [hcomp]; exact Finset.mem_singleton_self _
            rw [mem_completions] at hSmem
            refine ⟨hSmem.1, ?_⟩
            intro r' c' hne
            rw [hsub' r' c' hne]
            have hS9 := hS r' c'
            have hSne : cell S r' c' ≠ 0 := by
              rw [← hsub' r' c' hne]; exact hne
            exact (assignOf_val hS9 hSne).symm
          have hcomp' : completions attempt = {assignOf S} := by
            obtain ⟨a, ha⟩ := Finset.card_eq_one.mp hone
            rw [ha] at hmem ⊢
            rw [Finset.mem_singleton] at hmem
            rw [hmem]
          exact ih k (removed + 1) attempt hg' hle' hcons' hsub' hcomp'
        · rw [if_neg hu]
          exact ih k removed puzzle hg hle hcons hsub hcomp

/-- Claim C1 (amended): every puzzle produced by `generateLogicalSudoku`
from a valid complete solution grid — for any target filled-cell count and
any shuffle outcome — has exactly one completion satisfying the
row/column/box constraints, and that completion equals the stored solution.
(The `createPuzzle` path of routes.ts performs no uniqueness check and does
not have this property; see the counterexample.) -/
theorem claim_C1 (S : Grid) (filledCells : Nat)
    (positions : List (Nat × Nat)) (hg : dims2 S) (hle : entriesLe9 S)
    (hfull : fullGrid S) (hcons : consistent S) :
    numSolutions (generateLogicalSudoku S filledCells positions) = 1 ∧
      completions (generateLogicalSudoku S filledCells positions)
        = {assignOf S} := by
  have hinit : completions S = {assignOf S} :=
    completions_of_full hfull hle hcons
  have h := glsLoop_inv hle positions (81 - filledCells) 0 S hg hle hcons
    (fun _ _ _ => rfl) hinit
  refine ⟨?_, h⟩
  unfold numSolutions generateLogicalSudoku
  unfold generateLogicalSudoku at h
  rw [h]
  simp

/-- Witness for C1: the amended theorem applied to the concrete solution
`gridS0`, difficulty-like fill count 79 and a two-position shuffle. -/
theorem claim_C1_witness :
    dims2 gridS0 ∧ entriesLe9 gridS0 ∧ fullGrid gridS0 ∧ consistent gridS0 ∧
      (numSolutions (generateLogicalSudoku gridS0 79 [(0, 0), (0, 1)]) = 1 ∧
        completions (generateLogicalSudoku gridS0 79 [(0, 0), (0, 1)])
          = {assignOf gridS0}) :=
  ⟨by decide, by decide, by decide, by decide,
    claim_C1 gridS0 79 [(0, 0), (0, 1)] (by decide) (by decide) (by decide)
      (by decide)⟩

/-- The six positions whose clearing admits a second completion, put first
in the (modelled) shuffle; the remaining 75 positions follow in row-major
order. -/
def badPositions : List (Nat × Nat) :=
  [(0, 0), (0, 3), (0, 6), (1, 0), (1, 3), (1, 6)] ++
    positions81.filter
      (fun p => p ∉ [(0, 0), (0, 3), (0, 6), (1, 0), (1, 3), (1, 6)])

/-- Claim C1, counterexample: the `createPuzzle` room-creation path with
target 75 filled cells and this shuffle clears exactly the six cells of an
unavoidable set of `gridS0`; the resulting board has (at least) two distinct
completions — `gridS0` and `gridS1` — so the claim's "exactly one
completion" fails on that path. -/
theorem claim_C1_counterexample :
    1 < (completions (createPuzzle gridS0 75 badPositions)).card := by
  rw [Finset.one_lt_card]
  refine ⟨assignOf gridS0, ?_, assignOf gridS1, ?_, ?_⟩
  · rw [mem_completions]
    exact ⟨by decide, by decide⟩
  · rw [mem_completions]
    exact ⟨by decide, by decide⟩
  · decide

/-! ### Claim C7: `generateSudoku` / `fillBoard`

`fillBoard` shuffles a fresh candidate list at every cell it handles; the
stream of shuffle outcomes is modelled by `rnd : Nat → List Nat`, consumed
in call order through an explicit counter that is threaded through (and
returned from) the recursion. -/

/-- `g` is obtained from `h` by keeping every non-empty cell of `g`. -/
def subgridOf (g h : Grid) : Prop :=
  ∀ r c : Fin 9, cell g r c ≠ 0 → cell h r c = cell g r c

/-- The `for (num of numbers)` loop of `fillBoard`: try each shuffled
candidate, recurse on a successful placement, undo and move on otherwise.
`rec` is the recursive call one fuel level down; the counter component is
the next unread index of the random stream. -/
def fbGo (rec : Nat → Grid → Option Grid × Nat) (g : Grid) (r c : Nat) :
    List Nat → Nat → Option Grid × Nat
  | [], k => (none, k)
  | n :: ns, k =>
    if isValidPlacement g r c n then
      match rec k (setCell g r c n) with
      | (some g', k') => (some g', k')
      | (none, k') => fbGo rec g r c ns k'
    else fbGo rec g r c ns k

/-- `fillBoard(board)` from sudoku.ts: find the first empty cell, shuffle
the nine candidates (the shuffle outcome is `rnd k`), and try them in
order; success propagates, exhaustion backtracks.  Fuel bounds the
recursion depth (81 suffices from the empty board). -/
def fillBoard (rnd : Nat → List Nat) (fuel : Nat) :
    Nat → Grid → Option Grid × Nat :=
  Nat.rec
    (motive := fun _ => Nat → Grid → Option Grid × Nat)
    (fun k g =>
      match findEmpty g with
      | none => (some g, k)
      | some _ => (none, k))
    (fun _ ih k g =>
      match findEmpty g with
      | none => (some g, k)
      | some (r, c) => fbGo ih g r c (rnd k) (k + 1))
    fuel

theorem fillBoard_zero (rnd : Nat → List Nat) (k : Nat) (g : Grid) :
    fillBoard rnd 0 k g
      = match findEmpty g with
        | none => (some g, k)
        | some _ => (none, k) := rfl

theorem fillBoard_succ (rnd : Nat → List Nat) (fuel k : Nat) (g : Grid) :
    fillBoard rnd (fuel + 1) k g
      = match findEmpty g with
        | none => (some g, k)
        | some (r, c) => fbGo (fillBoard rnd fuel) g r c (rnd k) (k + 1)
    := rfl

/-- `generateSudoku()` from sudoku.ts: run `fillBoard` on the all-empty
board and hand back the board (`none` models the impossible failure). -/
def generateSudoku (rnd : Nat → List Nat) : Option Grid :=
  (fillBoard rnd 81 0 emptyGrid).1

theorem subgridOf_setCell {g : Grid} {r c : Fin 9} {n : Nat}
    (h0 : cell g r c = 0) : subgridOf g (setCell g r c n) := by
  intro r' c' hne
  have hp : (r : Nat) ≠ (r' : Nat) ∨ (c : Nat) ≠ (c' : Nat) := by
    by_contra hcon
    push_neg at hcon
    apply hne
    rw [show r' = r from Fin.ext hcon.1.symm, show c' = c from Fin.ext hcon.2.symm]
    exact h0
  exact cell_setCell_ne hp

theorem subgridOf_trans {g1 g2 g3 : Grid} (h12 : subgridOf g1 g2)
    (h23 : subgridOf g2 g3) : subgridOf g1 g3 := by
  intro r c hne
  have h2 := h12 r c hne
  have h3 := h23 r c (by rw [h2]; exact hne)
  rw [h3, h2]

/-- Soundness of the filler: a successful run produces a full, consistent,
well-formed grid extending the input. -/
theorem fillBoard_sound (rnd : Nat → List Nat)
    (hrnd : ∀ i, ∀ n ∈ rnd i, 1 ≤ n ∧ n ≤ 9) :
    ∀ (fuel k : Nat) (g g' : Grid) (k' : Nat),
      dims2 g → entriesLe9 g → consistent g →
      fillBoard rnd fuel k g = (some g', k') →
      dims2 g' ∧ entriesLe9 g' ∧ consistent g' ∧ fullGrid g' ∧ subgridOf g g' := by
  intro fuel
  induction fuel with
  | zero =>
    intro k g g' k' hg hle hcons hrun
    rw [fillBoard_zero] at hrun
    cases hfe : findEmpty g with
    | none =>
      rw [hfe] at hrun
      obtain ⟨rfl, rfl⟩ : g = g' ∧ k = k' := by
        simpa using hrun
      exact ⟨hg, hle, hcons, findEmpty_none_iff.mp hfe, fun _ _ _ => rfl⟩
    | some p =>
      rw [hfe] at hrun
      exact absurd hrun (by simp)
  | succ fuel ih =>
    intro k g g' k' hg hle hcons hrun
    rw [fillBoard_succ] at hrun
    cases hfe : findEmpty g with
    | none =>
      rw [hfe] at hrun
      obtain ⟨rfl, rfl⟩ : g = g' ∧ k = k' := by
        simpa using hrun
      exact ⟨hg, hle, hcons, findEmpty_none_iff.mp hfe, fun _ _ _ => rfl⟩
    | some p =>
      obtain ⟨r, c⟩ := p
      rw [hfe] at hrun
      obtain ⟨h0, hr, hc⟩ := findEmpty_some hfe
      -- the inner loop: any successful branch goes through a valid placement
      -- and the recursive soundness
      have hloop : ∀ (nums : List Nat) (kk : Nat),
          (∀ n ∈ nums, 1 ≤ n ∧ n ≤ 9) →
          fbGo (fillBoard rnd fuel) g r c nums kk = (some g', k') →
          dims2 g' ∧ entriesLe9 g' ∧ consistent g' ∧ fullGrid g' ∧
            subgridOf g g' := by
        intro nums
        induction nums with
        | nil =>
          intro kk _ hrun'
          exact absurd hrun' (by simp [fbGo])
        | cons n ns ihn =>
          intro kk hmem hrun'
          rw [fbGo] at hrun'
          by_cases hvalid : isValidPlacement g r c n = true
          · rw [if_pos hvalid] at hrun'
            have hn := hmem n (List.mem_cons_self n ns)
            have hg1 : dims2 (setCell g r c n) := dims2_set2 hg
            have hle1 : entriesLe9 (setCell g r c n) :=
              entriesLe9_setCell hle hn.2
            have hcons1 : consistent (setCell g r c n) :=
              consistent_setCell (r := ⟨r, hr⟩) (c := ⟨c, hc⟩) hg hcons h0 hvalid
            cases hrec : fillBoard rnd fuel kk (setCell g r c n) with
            | mk res krec =>
              cases res with
              | some gres =>
                rw [hrec] at hrun'
                simp only at hrun'
                obtain ⟨rfl, rfl⟩ : gres = g' ∧ krec = k' := by
                  simpa using hrun'
                obtain ⟨d1, d2, d3, d4, d5⟩ :=
                  ih kk (setCell g r c n) _ _ hg1 hle1 hcons1 hrec
                exact ⟨d1, d2, d3, d4,
                  subgridOf_trans
                    (subgridOf_setCell (r := ⟨r, hr⟩) (c := ⟨c, hc⟩) h0) d5⟩
              | none =>
                rw [hrec] at hrun'
                simp only at hrun'
                exact ihn krec
                  (fun m hm => hmem m (List.mem_cons_of_mem _ hm)) hrun'
          · rw [if_neg hvalid] at hrun'
            exact ihn kk (fun m hm => hmem m (List.mem_cons_of_mem _ hm)) hrun'
      exact hloop (rnd k) (k + 1) (hrnd k) hrun

/-- The value a completion of `g` puts in an empty cell passes the
placement check. -/
theorem valid_of_completion {g : Grid} {r c : Fin 9} {f : Assignment}
    (h0 : cell g r c = 0) (hv : validA f) (ha : agreesWith g f) :
    isValidPlacement g r c ((f r c).val + 1) = true := by
  cases hval : isValidPlacement g r c ((f r c).val + 1) with
  | true => rfl
  | false =>
    exfalso
    have hocc := (isValidPlacement_false_iff g r c _).mp hval
    obtain ⟨r', c', hu, hcell, hne⟩ :=
      exists_peer_of_occurs h0 (by omega) hocc
    have e' : cell g r' c' = (f r' c').val + 1 := ha r' c' (by omega)
    rw [e'] at hcell
    have : f r c = f r' c' := Fin.ext (by omega)
    exact hv r c r' c' hu hne this

/-- Completeness of the filler: whenever the current grid has a completion
and the shuffled lists cover 1..9, the search succeeds (for any position of
the random stream). -/
theorem fillBoard_complete (rnd : Nat → List Nat)
    (hrnd : ∀ i n, 1 ≤ n → n ≤ 9 → n ∈ rnd i) :
    ∀ (fuel k : Nat) (g : Grid),
      dims2 g → entriesLe9 g → consistent g → emptyCount g ≤ fuel →
      (completions g).Nonempty →
      ∃ (g' : Grid) (k' : Nat), fillBoard rnd fuel k g = (some g', k') := by
  intro fuel
  induction fuel with
  | zero =>
    intro k g hg hle hcons hfuel hne
    have hfull : fullGrid g := by
      rw [← findEmpty_none_iff]
      cases hfe : findEmpty g with
      | none => rfl
      | some p =>
        exfalso
        obtain ⟨r, c⟩ := p
        obtain ⟨h0, hr, hc⟩ := findEmpty_some hfe
        have := emptyCount_pos (r := ⟨r, hr⟩) (c := ⟨c, hc⟩) h0
        omega
    refine ⟨g, k, ?_⟩
    rw [fillBoard_zero, findEmpty_none_iff.mpr hfull]
  | succ fuel ih =>
    intro k g hg hle hcons hfuel hne
    cases hfe : findEmpty g with
    | none =>
      refine ⟨g, k, ?_⟩
      rw [fillBoard_succ, hfe]
    | some p =>
      obtain ⟨r, c⟩ := p
      obtain ⟨h0, hr, hc⟩ := findEmpty_some hfe
      have hne' : ∃ x, x ∈ completions g := hne
      obtain ⟨f, hf⟩ := hne'
      rw [mem_completions] at hf
      -- the witness value that the completion places at the empty cell
      have hwitness : ((f ⟨r, hr⟩ ⟨c, hc⟩).val + 1) ∈ rnd k :=
        hrnd k _ (by omega) (by omega)
      have hloop : ∀ (nums : List Nat) (kk : Nat),
          (∃ n ∈ nums, isValidPlacement g r c n = true ∧ 1 ≤ n ∧ n ≤ 9 ∧
            (completions (setCell g r c n)).Nonempty) →
          ∃ (g' : Grid) (k' : Nat),
            fbGo (fillBoard rnd fuel) g r c nums kk = (some g', k') := by
        intro nums
        induction nums with
        | nil =>
          intro kk hex
          obtain ⟨n, hn, _⟩ := hex
          exact absurd hn (by simp)
        | cons m ms ihm =>
          intro kk hex
          by_cases hvalid : isValidPlacement g r c m = true
          · -- placing m recurses; if it fails, the loop continues
            have hg1 : dims2 (setCell g r c m) := dims2_set2 hg
            cases hrec : fillBoard rnd fuel kk (setCell g r c m) with
            | mk res krec =>
              cases res with
              | some gres =>
                refine ⟨gres, krec, ?_⟩
                rw [fbGo, if_pos hvalid, hrec]
              | none =>
                obtain ⟨n, hn, hnv, hn1, hn9, hnne⟩ := hex
                rcases List.mem_cons.mp hn with rfl | hmem
                · -- the witness candidate cannot fail: recursion succeeds
                  exfalso
                  have hle1 : entriesLe9 (setCell g r c n) :=
                    entriesLe9_setCell hle hn9
                  have hcons1 : consistent (setCell g r c n) :=
                    consistent_setCell (r := ⟨r, hr⟩) (c := ⟨c, hc⟩)
                      hg hcons h0 hnv
                  have hec : emptyCount (setCell g r c n) = emptyCount g - 1 :=
                    emptyCount_setCell (r := ⟨r, hr⟩) (c := ⟨c, hc⟩)
                      hg h0 (by omega)
                  have hpos := emptyCount_pos (r := ⟨r, hr⟩) (c := ⟨c, hc⟩) h0
                  obtain ⟨g', k', hsucc⟩ := ih kk (setCell g r c n)
                    hg1 hle1 hcons1 (by omega) hnne
                  rw [hsucc] at hrec
                  exact absurd hrec (by simp)
                · obtain ⟨g', k', hsucc⟩ :=
                    ihm krec ⟨n, hmem, hnv, hn1, hn9, hnne⟩
                  refine ⟨g', k', ?_⟩
                  rw [fbGo, if_pos hvalid, hrec]
                  exact hsucc
          · obtain ⟨n, hn, hnv, hrest⟩ := hex
            rcases List.mem_cons.mp hn with rfl | hmem
            · exact absurd hnv hvalid
            · obtain ⟨g', k', hsucc⟩ := ihm kk ⟨n, hmem, hnv, hrest⟩
              refine ⟨g', k', ?_⟩
              rw [fbGo, if_neg hvalid]
              exact hsucc
      have hval : isValidPlacement g r c ((f ⟨r, hr⟩ ⟨c, hc⟩).val + 1) = true :=
        valid_of_completion (r := ⟨r, hr⟩) (c := ⟨c, hc⟩) h0 hf.1 hf.2
      have hnne1 : (completions
          (setCell g r c ((f ⟨r, hr⟩ ⟨c, hc⟩).val + 1))).Nonempty := by
        refine ⟨f, ?_⟩
        rw [mem_completions]
        exact ⟨hf.1,
          (agreesWith_setCell_iff (r := ⟨r, hr⟩) (c := ⟨c, hc⟩)
            (v := f ⟨r, hr⟩ ⟨c, hc⟩) hg h0).mpr ⟨hf.2, rfl⟩⟩
      obtain ⟨g', k', hsucc⟩ := hloop (rnd k) (k + 1)
        ⟨(f ⟨r, hr⟩ ⟨c, hc⟩).val + 1, hwitness, hval, by omega, by omega,
          hnne1⟩
      refine ⟨g', k', ?_⟩
      rw [fillBoard_succ, hfe]
      exact hsucc

/-- Converting between the grid value of a cell and its read-off
assignment value, on full well-formed grids. -/
theorem cell_eq_iff_assignOf {g : Grid} (hfull : fullGrid g)
    (hle : entriesLe9 g) (r c v : Fin 9) :
    cell g r c = v.val + 1 ↔ assignOf g r c = v := by
  have h := assignOf_val (hle r c) (hfull r c)
  constructor
  · intro he
    exact Fin.ext (by omega)
  · intro he
    rw [← h, he]

/-- A full consistent grid with entries in [0,9] holds each of 1..9 exactly
once in every row, every column, and every 3x3 box. -/
theorem units_exactly_once {g : Grid} (hfull : fullGrid g)
    (hle : entriesLe9 g) (hcons : consistent g) :
    (∀ r v : Fin 9, ∃! c : Fin 9, cell g r c = v.val + 1) ∧
    (∀ c v : Fin 9, ∃! r : Fin 9, cell g r c = v.val + 1) ∧
    (∀ br bc : Fin 3, ∀ v : Fin 9, ∃! p : Fin 3 × Fin 3,
      cell g (br.val * 3 + p.1.val) (bc.val * 3 + p.2.val) = v.val + 1) := by
  have hva : validA (assignOf g) := validA_assignOf hfull hle hcons
  refine ⟨?_, ?_, ?_⟩
  · intro r v
    have hinj : Function.Injective fun c : Fin 9 => assignOf g r c := by
      intro c1 c2 he
      by_contra hne
      exact hva r c1 r c2 (Or.inl rfl)
        (Or.inr fun hv => hne (Fin.ext hv)) he
    have hbij := (Finite.injective_iff_bijective).mp hinj
    obtain ⟨c, hc⟩ := hbij.2 v
    refine ⟨c, (cell_eq_iff_assignOf hfull hle r c v).mpr hc, ?_⟩
    intro c' hc'
    exact hinj ((cell_eq_iff_assignOf hfull hle r c' v).mp hc' |>.trans hc.symm)
  · intro c v
    have hinj : Function.Injective fun r : Fin 9 => assignOf g r c := by
      intro r1 r2 he
      by_contra hne
      exact hva r1 c r2 c (Or.inr (Or.inl rfl))
        (Or.inl fun hv => hne (Fin.ext hv)) he
    have hbij := (Finite.injective_iff_bijective).mp hinj
    obtain ⟨r, hr⟩ := hbij.2 v
    refine ⟨r, (cell_eq_iff_assignOf hfull hle r c v).mpr hr, ?_⟩
    intro r' hr'
    exact hinj ((cell_eq_iff_assignOf hfull hle r' c v).mp hr' |>.trans hr.symm)
  · intro br bc v
    have hrow : ∀ p : Fin 3 × Fin 3, (br.val * 3 + p.1.val) < 9 := by
      intro p
      have := p.1.isLt
      have := br.isLt
      omega
    have hcol : ∀ p : Fin 3 × Fin 3, (bc.val * 3 + p.2.val) < 9 := by
      intro p
      have := p.2.isLt
      have := bc.isLt
      omega
    set φ : Fin 3 × Fin 3 → Fin 9 := fun p =>
      assignOf g ⟨br.val * 3 + p.1.val, hrow p⟩ ⟨bc.val * 3 + p.2.val, hcol p⟩
      with hphi
    have hinj : Function.Injective φ := by
      intro p1 p2 he
      by_contra hne
      refine hva _ _ _ _ (Or.inr (Or.inr ⟨?_, ?_⟩)) ?_ he
      · show (br.val * 3 + p1.1.val) / 3 = (br.val * 3 + p2.1.val) / 3
        have := p1.1.isLt
        have := p2.1.isLt
        omega
      · show (bc.val * 3 + p1.2.val) / 3 = (bc.val * 3 + p2.2.val) / 3
        have := p1.2.isLt
        have := p2.2.isLt
        omega
      · show br.val * 3 + p1.1.val ≠ br.val * 3 + p2.1.val ∨
          bc.val * 3 + p1.2.val ≠ bc.val * 3 + p2.2.val
        have hne' : p1.1 ≠ p2.1 ∨ p1.2 ≠ p2.2 := by
          by_contra hcon
          push_neg at hcon
          exact hne (Prod.ext hcon.1 hcon.2)
        rcases hne' with h | h
        · exact Or.inl fun hv => h (Fin.ext (by omega))
        · exact Or.inr fun hv => h (Fin.ext (by omega))
    have hbij : Function.Bijective φ :=
      (Fintype.bijective_iff_injective_and_card φ).mpr ⟨hinj, by simp⟩
    obtain ⟨p, hp⟩ := hbij.2 v
    refine ⟨p, ?_, ?_⟩
    · exact (cell_eq_iff_assignOf hfull hle _ _ v).mpr hp
    · intro p' hp'
      exact hinj (((cell_eq_iff_assignOf hfull hle _ _ v).mp hp').trans hp.symm)

/-- Claim C7: `generateSudoku`, starting from the all-empty grid, always
terminates successfully (for every outcome of the candidate shuffles,
`fillBoard` succeeds; the no-solution failure never happens) and returns a
fully filled grid in which every row, every column, and every 3x3 box
contains each of 1..9 exactly once. -/
theorem claim_C7 (rnd : Nat → List Nat)
    (hrnd : ∀ i, (rnd i).Perm [1, 2, 3, 4, 5, 6, 7, 8, 9]) :
    ∃ g : Grid, generateSudoku rnd = some g ∧ fullGrid g ∧
      (∀ r v : Fin 9, ∃! c : Fin 9, cell g r c = v.val + 1) ∧
      (∀ c v : Fin 9, ∃! r : Fin 9, cell g r c = v.val + 1) ∧
      (∀ br bc : Fin 3, ∀ v : Fin 9, ∃! p : Fin 3 × Fin 3,
        cell g (br.val * 3 + p.1.val) (bc.val * 3 + p.2.val) = v.val + 1) := by
  have hcover : ∀ i n, 1 ≤ n → n ≤ 9 → n ∈ rnd i := by
    intro i n h1 h9
    rw [(hrnd i).mem_iff]
    interval_cases n <;> simp
  have hbound : ∀ i, ∀ n ∈ rnd i, 1 ≤ n ∧ n ≤ 9 := by
    intro i n hn
    rw [(hrnd i).mem_iff] at hn
    simp at hn
    omega
  have hne : (completions emptyGrid).Nonempty := by
    refine ⟨assignOf gridS0, ?_⟩
    rw [mem_completions]
    exact ⟨by decide, by decide⟩
  obtain ⟨g, k', hrun⟩ := fillBoard_complete rnd hcover 81 0 emptyGrid
    (by decide) (by decide) (by decide) (emptyCount_le_81 _) hne
  obtain ⟨hg, hle, hcons, hfull, _⟩ := fillBoard_sound rnd hbound 81 0
    emptyGrid g k' (by decide) (by decide) (by decide) hrun
  obtain ⟨hrows, hcols, hboxes⟩ := units_exactly_once hfull hle hcons
  refine ⟨g, ?_, hfull, hrows, hcols, hboxes⟩
  unfold generateSudoku
  rw [hrun]

/-- Witness for C7: the theorem applied to the constant identity shuffle
(a permutation of 1..9 at every draw). -/
theorem claim_C7_witness :
    (∀ i : Nat, ((fun _ : Nat => [1, 2, 3, 4, 5, 6, 7, 8, 9]) i).Perm
        [1, 2, 3, 4, 5, 6, 7, 8, 9]) ∧
      (∃ g : Grid,
        generateSudoku (fun _ => [1, 2, 3, 4, 5, 6, 7, 8, 9]) = some g ∧
        fullGrid g ∧
        (∀ r v : Fin 9, ∃! c : Fin 9, cell g r c = v.val + 1) ∧
        (∀ c v : Fin 9, ∃! r : Fin 9, cell g r c = v.val + 1) ∧
        (∀ br bc : Fin 3, ∀ v : Fin 9, ∃! p : Fin 3 × Fin 3,
          cell g (br.val * 3 + p.1.val) (bc.val * 3 + p.2.val) = v.val + 1)) :=
  ⟨fun _ => List.Perm.refl _,
    claim_C7 (fun _ => [1, 2, 3, 4, 5, 6, 7, 8, 9])
      (fun _ => List.Perm.refl _)⟩

/-! ### Completed-unit detection and auto-locking (sudoku.ts / server) -/

/-- The `seen`-set scan shared by `isRowComplete`, `isColumnComplete` and
`isBlockComplete`: walk the unit's cells in order, fail on an empty cell or
a repeated value, succeed after nine distinct values.  (The `!board[row]`
guards of the source are subsumed: a missing row reads as 0 and fails.) -/
def scanUnit (g : Grid) : List (Nat × Nat) → List Nat → Bool
  | [], seen => seen.length == 9
  | (r, c) :: rest, seen =>
    let v := cell g r c
    if v = 0 then false
    else if seen.contains v then false
    else scanUnit g rest (v :: seen)

/-- The nine cells of row `row`, in column order. -/
def rowCells (row : Nat) : List (Nat × Nat) :=
  (List.range 9).map fun c => (row, c)

/-- The nine cells of column `col`, in row order. -/
def colCells (col : Nat) : List (Nat × Nat) :=
  (List.range 9).map fun r => (r, col)

/-- The nine cells of the 3x3 block `(blockRow, blockCol)`, row-major. -/
def blockCells (blockRow blockCol : Nat) : List (Nat × Nat) :=
  (List.range 3).flatMap fun i =>
    (List.range 3).map fun j => (blockRow * 3 + i, blockCol * 3 + j)

/-- `isRowComplete(board, row)` from sudoku.ts. -/
def isRowComplete (g : Grid) (row : Nat) : Bool :=
  scanUnit g (rowCells row) []

/-- `isColumnComplete(board, col)` from sudoku.ts. -/
def isColumnComplete (g : Grid) (col : Nat) : Bool :=
  scanUnit g (colCells col) []

/-- `isBlockComplete(board, blockRow, blockCol)` from sudoku.ts. -/
def isBlockComplete (g : Grid) (blockRow blockCol : Nat) : Bool :=
  scanUnit g (blockCells blockRow blockCol) []

/-- Set every cell of the list to locked (the inner `for` loops of
`getAutoLockCells`). -/
def lockCells : List (List Bool) → List (Nat × Nat) → List (List Bool)
  | m, [] => m
  | m, p :: ps => lockCells (set2 m p.1 p.2 true) ps

/-- The row pass of `getAutoLockCells`: lock every complete row. -/
def lockRows (board : Grid) : List Nat → List (List Bool) → List (List Bool)
  | [], lk => lk
  | row :: rest, lk =>
    lockRows board rest
      (if isRowComplete board row then lockCells lk (rowCells row) else lk)

/-- The column pass of `getAutoLockCells`. -/
def lockCols (board : Grid) : List Nat → List (List Bool) → List (List Bool)
  | [], lk => lk
  | col :: rest, lk =>
    lockCols board rest
      (if isColumnComplete board col then lockCells lk (colCells col) else lk)

/-- The block pass of `getAutoLockCells`, over the nine (blockRow, blockCol)
pairs. -/
def lockBlocks (board : Grid) :
    List (Nat × Nat) → List (List Bool) → List (List Bool)
  | [], lk => lk
  | (br, bc) :: rest, lk =>
    lockBlocks board rest
      (if isBlockComplete board br bc then lockCells lk (blockCells br bc)
       else lk)

/-- The nine block coordinates, row-major (the nested `for blockRow /
for blockCol` loops). -/
def blockCoords : List (Nat × Nat) :=
  (List.range 3).flatMap fun br => (List.range 3).map fun bc => (br, bc)

/-- `getAutoLockCells(board, currentLocked)` from sudoku.ts: copy the mask
and additionally lock every cell of every complete row, column and block. -/
def getAutoLockCells (board : Grid) (currentLocked : List (List Bool)) :
    List (List Bool) :=
  lockBlocks board blockCoords
    (lockCols board (List.range 9)
      (lockRows board (List.range 9) currentLocked))

/-- `isCompleted(board)` from sudoku.ts. -/
def isCompleted (g : Grid) : Bool :=
  positions81.all fun p => cell g p.1 p.2 != 0

/-- `isPuzzleCompleted(board, solution)` from the server routes: complete
and cell-for-cell equal to the solution. -/
def isPuzzleCompleted (board solution : Grid) : Bool :=
  isCompleted board &&
    (positions81.all fun p => cell board p.1 p.2 == cell solution p.1 p.2)

/-- `createLockedCells(board)` from the server routes: locked exactly where
the board is non-zero. -/
def createLockedCells (board : Grid) : List (List Bool) :=
  board.map fun row => row.map fun c => c != 0

/-! ### Characterisation of the auto-lock computation -/

theorem mem_rowCells {p : Nat × Nat} {row : Nat} :
    p ∈ rowCells row ↔ p.1 = row ∧ p.2 < 9 := by
  cases p with
  | mk a b =>
    simp only [rowCells, List.mem_map, List.mem_range, Prod.mk.injEq]
    constructor
    · rintro ⟨c, hc, rfl, rfl⟩
      exact ⟨rfl, hc⟩
    · rintro ⟨rfl, hb⟩
      exact ⟨b, hb, rfl, rfl⟩

theorem mem_colCells {p : Nat × Nat} {col : Nat} :
    p ∈ colCells col ↔ p.2 = col ∧ p.1 < 9 := by
  cases p with
  | mk a b =>
    simp only [colCells, List.mem_map, List.mem_range, Prod.mk.injEq]
    constructor
    · rintro ⟨r, hr, rfl, rfl⟩
      exact ⟨rfl, hr⟩
    · rintro ⟨rfl, ha⟩
      exact ⟨a, ha, rfl, rfl⟩

theorem mem_blockCells {r c br bc : Nat} (hr : r < 9) (hc : c < 9) :
    (r, c) ∈ blockCells br bc ↔ br = r / 3 ∧ bc = c / 3 := by
  simp only [blockCells, List.mem_flatMap, List.mem_map, List.mem_range,
    Prod.mk.injEq]
  constructor
  · rintro ⟨i, hi, j, hj, rfl, rfl⟩
    omega
  · rintro ⟨rfl, rfl⟩
    exact ⟨r % 3, by omega, ⟨c % 3, by omega, by omega, by omega⟩⟩

theorem mem_blockCoords {p : Nat × Nat} :
    p ∈ blockCoords ↔ p.1 < 3 ∧ p.2 < 3 := by
  cases p with
  | mk a b =>
    simp only [blockCoords, List.mem_flatMap, List.mem_map, List.mem_range,
      Prod.mk.injEq]
    constructor
    · rintro ⟨i, hi, j, hj, rfl, rfl⟩
      exact ⟨hi, hj⟩
    · rintro ⟨ha, hb⟩
      exact ⟨a, ha, b, hb, rfl, rfl⟩

theorem dims2_lockCells {lk : List (List Bool)} {cells : List (Nat × Nat)}
    (hlk : dims2 lk) : dims2 (lockCells lk cells) := by
  induction cells generalizing lk with
  | nil => exact hlk
  | cons p ps ih => exact ih (dims2_set2 hlk)

theorem lockCells_get {lk : List (List Bool)} {cells : List (Nat × Nat)}
    (hlk : dims2 lk) (hcells : ∀ p ∈ cells, p.1 < 9 ∧ p.2 < 9) (r c : Fin 9) :
    get2 false (lockCells lk cells) r c = true ↔
      get2 false lk r c = true ∨ ((r : Nat), (c : Nat)) ∈ cells := by
  induction cells generalizing lk with
  | nil =>
    rw [lockCells]
    simp
  | cons p ps ih =>
    rw [lockCells]
    have hp := hcells p (List.mem_cons_self p ps)
    rw [ih (dims2_set2 hlk) fun q hq => hcells q (List.mem_cons_of_mem _ hq)]
    by_cases hpe : p.1 = (r : Nat) ∧ p.2 = (c : Nat)
    · have hpp : p = ((r : Nat), (c : Nat)) := by
        cases p
        simp only at hpe
        simp [hpe.1, hpe.2]
      have : get2 false (set2 lk p.1 p.2 true) (r : Nat) (c : Nat) = true := by
        rw [hpp]
        exact get2_set2_self false true hlk r.isLt c.isLt
      rw [this]
      simp [hpp]
    · have : get2 false (set2 lk p.1 p.2 true) (r : Nat) (c : Nat)
          = get2 false lk r c :=
        get2_set2_ne false true (not_and_or.mp hpe)
      rw [this]
      have hne : ((r : Nat), (c : Nat)) ≠ p := by
        intro h
        cases p
        cases h
        exact hpe ⟨rfl, rfl⟩
      constructor
      · rintro (h | h)
        · exact Or.inl h
        · exact Or.inr (List.mem_cons_of_mem _ h)
      · rintro (h | h)
        · exact Or.inl h
        · rcases List.mem_cons.mp h with h | h
          · exact absurd h hne
          · exact Or.inr h

theorem dims2_lockRows {board : Grid} {rows : List Nat}
    {lk : List (List Bool)} (hlk : dims2 lk) :
    dims2 (lockRows board rows lk) := by
  induction rows generalizing lk with
  | nil => exact hlk
  | cons row rest ih =>
    rw [lockRows]
    split
    · exact ih (dims2_lockCells hlk)
    · exact ih hlk

theorem dims2_lockCols {board : Grid} {cols : List Nat}
    {lk : List (List Bool)} (hlk : dims2 lk) :
    dims2 (lockCols board cols lk) := by
  induction cols generalizing lk with
  | nil => exact hlk
  | cons col rest ih =>
    rw [lockCols]
    split
    · exact ih (dims2_lockCells hlk)
    · exact ih hlk

theorem dims2_lockBlocks {board : Grid} {coords : List (Nat × Nat)}
    {lk : List (List Bool)} (hlk : dims2 lk) :
    dims2 (lockBlocks board coords lk) := by
  induction coords generalizing lk with
  | nil => exact hlk
  | cons p rest ih =>
    obtain ⟨br, bc⟩ := p
    rw [lockBlocks]
    split
    · exact ih (dims2_lockCells hlk)
    · exact ih hlk

theorem lockRows_get {board : Grid} {rows : List Nat} {lk : List (List Bool)}
    (hlk : dims2 lk) (hrows : ∀ x ∈ rows, x < 9) (r c : Fin 9) :
    get2 false (lockRows board rows lk) r c = true ↔
      get2 false lk r c = true ∨
        ((r : Nat) ∈ rows ∧ isRowComplete board r = true) := by
  induction rows generalizing lk with
  | nil =>
    rw [lockRows]
    simp
  | cons row rest ih =>
    have hrow9 : row < 9 := hrows row (List.mem_cons_self row rest)
    have hrest : ∀ x ∈ rest, x < 9 := fun x hx =>
      hrows x (List.mem_cons_of_mem _ hx)
    rw [lockRows]
    by_cases hcomp : isRowComplete board row = true
    · rw [if_pos hcomp]
      rw [ih (dims2_lockCells hlk) hrest]
      rw [lockCells_get hlk (fun q hq => by
        rcases mem_rowCells.mp hq with ⟨h1, h2⟩
        omega) r c]
      constructor
      · rintro ((h | h) | h)
        · exact Or.inl h
        · have h1 : (r : Nat) = row := (mem_rowCells.mp h).1
          refine Or.inr ⟨?_, ?_⟩
          · rw [h1]
            exact List.mem_cons_self _ _
          · rw [h1]
            exact hcomp
        · exact Or.inr ⟨List.mem_cons_of_mem _ h.1, h.2⟩
      · rintro (h | ⟨hmem, hcr⟩)
        · exact Or.inl (Or.inl h)
        · rcases List.mem_cons.mp hmem with h | h
          · refine Or.inl (Or.inr ?_)
            rw [mem_rowCells]
            exact ⟨h, c.isLt⟩
          · exact Or.inr ⟨h, hcr⟩
    · rw [if_neg hcomp]
      rw [ih hlk hrest]
      constructor
      · rintro (h | h)
        · exact Or.inl h
        · exact Or.inr ⟨List.mem_cons_of_mem _ h.1, h.2⟩
      · rintro (h | ⟨hmem, hcr⟩)
        · exact Or.inl h
        · rcases List.mem_cons.mp hmem with h | h
          · rw [h] at hcr
            exact absurd hcr hcomp
          · exact Or.inr ⟨h, hcr⟩

theorem lockCols_get {board : Grid} {cols : List Nat} {lk : List (List Bool)}
    (hlk : dims2 lk) (hcols : ∀ x ∈ cols, x < 9) (r c : Fin 9) :
    get2 false (lockCols board cols lk) r c = true ↔
      get2 false lk r c = true ∨
        ((c : Nat) ∈ cols ∧ isColumnComplete board c = true) := by
  induction cols generalizing lk with
  | nil =>
    rw [lockCols]
    simp
  | cons col rest ih =>
    have hcol9 : col < 9 := hcols col (List.mem_cons_self col rest)
    have hrest : ∀ x ∈ rest, x < 9 := fun x hx =>
      hcols x (List.mem_cons_of_mem _ hx)
    rw [lockCols]
    by_cases hcomp : isColumnComplete board col = true
    · rw [if_pos hcomp]
      rw [ih (dims2_lockCells hlk) hrest]
      rw [lockCells_get hlk (fun q hq => by
        rcases mem_colCells.mp hq with ⟨h1, h2⟩
        omega) r c]
      constructor
      · rintro ((h | h) | h)
        · exact Or.inl h
        · have h1 : (c : Nat) = col := (mem_colCells.mp h).1
          refine Or.inr ⟨?_, ?_⟩
          · rw [h1]
            exact List.mem_cons_self _ _
          · rw [h1]
            exact hcomp
        · exact Or.inr ⟨List.mem_cons_of_mem _ h.1, h.2⟩
      · rintro (h | ⟨hmem, hcr⟩)
        · exact Or.inl (Or.inl h)
        · rcases List.mem_cons.mp hmem with h | h
          · refine Or.inl (Or.inr ?_)
            rw [mem_colCells]
            exact ⟨h, r.isLt⟩
          · exact Or.inr ⟨h, hcr⟩
    · rw [if_neg hcomp]
      rw [ih hlk hrest]
      constructor
      · rintro (h | h)
        · exact Or.inl h
        · exact Or.inr ⟨List.mem_cons_of_mem _ h.1, h.2⟩
      · rintro (h | ⟨hmem, hcr⟩)
        · exact Or.inl h
        · rcases List.mem_cons.mp hmem with h | h
          · rw [h] at hcr
            exact absurd hcr hcomp
          · exact Or.inr ⟨h, hcr⟩

theorem lockBlocks_get {board : Grid} {coords : List (Nat × Nat)}
    {lk : List (List Bool)} (hlk : dims2 lk)
    (hcoords : ∀ p ∈ coords, p.1 < 3 ∧ p.2 < 3) (r c : Fin 9) :
    get2 false (lockBlocks board coords lk) r c = true ↔
      get2 false lk r c = true ∨
        (((r : Nat) / 3, (c : Nat) / 3) ∈ coords ∧
          isBlockComplete board ((r : Nat) / 3) ((c : Nat) / 3) = true) := by
  induction coords generalizing lk with
  | nil =>
    rw [lockBlocks]
    simp
  | cons p rest ih =>
    obtain ⟨br, bc⟩ := p
    have hp3 := hcoords (br, bc) (List.mem_cons_self _ _)
    have hrest : ∀ q ∈ rest, q.1 < 3 ∧ q.2 < 3 := fun q hq =>
      hcoords q (List.mem_cons_of_mem _ hq)
    rw [lockBlocks]
    by_cases hcomp : isBlockComplete board br bc = true
    · rw [if_pos hcomp]
      rw [ih (dims2_lockCells hlk) hrest]
      rw [lockCells_get hlk (fun q hq => by
        simp only [blockCells, List.mem_flatMap, List.mem_map,
          List.mem_range] at hq
        obtain ⟨i, hi, j, hj, hqe⟩ := hq
        obtain ⟨h3a, h3b⟩ := hp3
        have he1 : br * 3 + i = q.1 := congrArg Prod.fst hqe
        have he2 : bc * 3 + j = q.2 := congrArg Prod.snd hqe
        omega) r c]
      constructor
      · rintro ((h | h) | h)
        · exact Or.inl h
        · rcases (mem_blockCells r.isLt c.isLt).mp h with ⟨h1, h2⟩
          refine Or.inr ⟨?_, ?_⟩
          · rw [← h1, ← h2]
            exact List.mem_cons_self _ _
          · rw [← h1, ← h2]
            exact hcomp
        · exact Or.inr ⟨List.mem_cons_of_mem _ h.1, h.2⟩
      · rintro (h | ⟨hmem, hcr⟩)
        · exact Or.inl (Or.inl h)
        · rcases List.mem_cons.mp hmem with h | h
          · refine Or.inl (Or.inr ?_)
            rw [mem_blockCells r.isLt c.isLt]
            exact ⟨congrArg Prod.fst h.symm, congrArg Prod.snd h.symm⟩
          · exact Or.inr ⟨h, hcr⟩
    · rw [if_neg hcomp]
      rw [ih hlk hrest]
      constructor
      · rintro (h | h)
        · exact Or.inl h
        · exact Or.inr ⟨List.mem_cons_of_mem _ h.1, h.2⟩
      · rintro (h | ⟨hmem, hcr⟩)
        · exact Or.inl h
        · rcases List.mem_cons.mp hmem with h | h
          · rw [show br = (r : Nat) / 3 from congrArg Prod.fst h.symm,
              show bc = (c : Nat) / 3 from congrArg Prod.snd h.symm] at hcomp
            exact absurd hcr hcomp
          · exact Or.inr ⟨h, hcr⟩

theorem dims2_getAutoLockCells {board : Grid} {lk : List (List Bool)}
    (hlk : dims2 lk) : dims2 (getAutoLockCells board lk) :=
  dims2_lockBlocks (dims2_lockCols (dims2_lockRows hlk))

/-- Full characterisation of `getAutoLockCells`: a cell is locked in the
result exactly when it already was, or its row, column or block is
complete and duplicate-free. -/
theorem getAutoLockCells_get {board : Grid} {lk : List (List Bool)}
    (hlk : dims2 lk) (r c : Fin 9) :
    get2 false (getAutoLockCells board lk) r c = true ↔
      get2 false lk r c = true ∨ isRowComplete board r = true ∨
        isColumnComplete board c = true ∨
        isBlockComplete board ((r : Nat) / 3) ((c : Nat) / 3) = true := by
  unfold getAutoLockCells
  rw [lockBlocks_get (dims2_lockCols (dims2_lockRows hlk))
    (fun p hp => mem_blockCoords.mp hp) r c]
  rw [lockCols_get (dims2_lockRows hlk)
    (fun x hx => List.mem_range.mp hx) r c]
  rw [lockRows_get hlk (fun x hx => List.mem_range.mp hx) r c]
  have hrr : (r : Nat) ∈ List.range 9 := List.mem_range.mpr r.isLt
  have hcc : (c : Nat) ∈ List.range 9 := List.mem_range.mpr c.isLt
  have hbb : ((r : Nat) / 3, (c : Nat) / 3) ∈ blockCoords := by
    rw [mem_blockCoords]
    refine ⟨?_, ?_⟩
    · show (r : Nat) / 3 < 3
      have := r.isLt
      omega
    · show (c : Nat) / 3 < 3
      have := c.isLt
      omega
  tauto

/-- A scan that succeeds saw no empty cell. -/
theorem scanUnit_nonzero {g : Grid} :
    ∀ {cells : List (Nat × Nat)} {seen : List Nat},
      scanUnit g cells seen = true → ∀ p ∈ cells, cell g p.1 p.2 ≠ 0 := by
  intro cells
  induction cells with
  | nil =>
    intro seen _ p hp
    exact absurd hp (by simp)
  | cons q qs ih =>
    intro seen hscan p hp
    obtain ⟨qr, qc⟩ := q
    rw [scanUnit] at hscan
    by_cases hz : cell g qr qc = 0
    · rw [if_pos hz] at hscan
      exact absurd hscan (by simp)
    · rw [if_neg hz] at hscan
      by_cases hseen : (seen.contains (cell g qr qc)) = true
      · rw [if_pos hseen] at hscan
        exact absurd hscan (by simp)
      · rw [if_neg hseen] at hscan
        rcases List.mem_cons.mp hp with rfl | hmem
        · exact hz
        · exact ih hscan p hmem

/-! ### The room mutation core (server move and undo handlers)

The authoritative per-room state and the `POST /moves` and `POST /undo`
handlers of the server, translated from `registerRoutes`.  Timestamps are
omitted; the move log is kept most-recent-first, so the log prepend plays
the role of `createMove` plus the timestamp-descending sort of
`getRecentMoves`. -/

/-- The `moveType` values of the schema. -/
inductive MoveType where
  | number
  | note
  | clear
deriving DecidableEq

/-- A `Move` record, including the previous-state snapshot stored for
undo. -/
structure MoveRec where
  playerId : Nat
  row : Nat
  col : Nat
  value : Option Nat
  notes : Option (List Nat)
  moveType : MoveType
  isCorrect : Bool
  previousValue : Option Nat
  previousNotes : Option (List Nat)
  previousIncorrect : Bool
deriving DecidableEq

/-- The room aggregate (board, notes, masks, counters, flags). -/
structure Room where
  board : Grid
  solution : Grid
  notes : List (List (List Nat))
  lockedCells : List (List Bool)
  incorrectCells : List (List Bool)
  errors : Nat
  isGameOver : Bool
  isWon : Bool
  totalMoves : Nat
deriving DecidableEq

/-- A room together with its move log (most recent first). -/
structure GameState where
  room : Room
  moves : List MoveRec
deriving DecidableEq

/-- The request body of a move. -/
structure MoveInput where
  playerId : Nat
  row : Nat
  col : Nat
  value : Option Nat
  notes : Option (List Nat)
  moveType : MoveType
deriving DecidableEq

/-- `removeNumberFromRelatedNotes(notes, row, col, number)` from the server:
strip `number` from the pencil marks of every cell sharing the row, the
column, or the 3x3 box. -/
def removeNumberFromRelatedNotes (notes : List (List (List Nat)))
    (row col number : Nat) : List (List (List Nat)) :=
  let n1 := (List.range 9).foldl
    (fun m c => set2 m row c ((get2 [] m row c).filter fun n => n != number))
    notes
  let n2 := (List.range 9).foldl
    (fun m r => set2 m r col ((get2 [] m r col).filter fun n => n != number))
    n1
  (List.range 3).foldl
    (fun m i => (List.range 3).foldl
      (fun m j =>
        set2 m (row / 3 * 3 + i) (col / 3 * 3 + j)
          ((get2 [] m (row / 3 * 3 + i) (col / 3 * 3 + j)).filter
            fun n => n != number))
      m)
    n2

/-- The mutation applied by the `POST /api/rooms/:roomId/moves` handler
once the game-over and locked-cell guards have passed: apply the
number/note/clear mutation, re-run auto-locking, evaluate win/loss, and
append a move record.  JS `value || 0` writes 0 for both `null` and 0;
correctness is `value === null || solution[cell] === value`.

The handler's "original state" snapshots are shallow copies:
`originalBoard = [...room.board]` and `originalIncorrectCells =
[...room.incorrectCells]` copy only the outer arrays, so they share the
row arrays that `board[row][col] = value || 0` and
`incorrectCells[row][col] = ...` mutate in place.  The move record is
built after those writes, so `previousValue: originalBoard[row][col] ||
null` and `previousIncorrect: originalIncorrectCells[row][col] || false`
store the POST-move cell values (with 0 collapsing to null).  Only
`originalNotes` is a deep copy taken before mutation, so `previousNotes`
is the genuine pre-move pencil-mark list. -/
def applyMoveActive (st : GameState) (mv : MoveInput) : GameState :=
  let room := st.room
  let board0 := room.board
  let notes0 := room.notes
  let solution := room.solution
  let incorrect0 := room.incorrectCells
  let originalNotes := get2 [] notes0 mv.row mv.col
  let step :
      Grid × List (List (List Nat)) × List (List Bool) × Bool × Nat :=
    match mv.moveType with
    | .number =>
      let isCorrect : Bool :=
        match mv.value with
        | none => true
        | some v => cell solution mv.row mv.col == v
      let board1 := setCell board0 mv.row mv.col (mv.value.getD 0)
      let cleared := set2 notes0 mv.row mv.col []
      let notes1 :=
        match mv.value, isCorrect with
        | some v, true => removeNumberFromRelatedNotes cleared mv.row mv.col v
        | _, _ => cleared
      let bad := mv.value.isSome && !isCorrect
      let newErrors := if bad then room.errors + 1 else room.errors
      let incorrect1 := set2 incorrect0 mv.row mv.col bad
      (board1, notes1, incorrect1, isCorrect, newErrors)
    | .note =>
      (board0, set2 notes0 mv.row mv.col (mv.notes.getD []), incorrect0,
        true, room.errors)
    | .clear =>
      (setCell board0 mv.row mv.col 0, set2 notes0 mv.row mv.col [],
        set2 incorrect0 mv.row mv.col false, true, room.errors)
  match step with
  | (board1, notes1, incorrect1, isCorrect, newErrors) =>
    let newLockedCells := getAutoLockCells board1 room.lockedCells
    let isWon := isPuzzleCompleted board1 solution
    let gameOver := decide (3 ≤ newErrors) || isWon
    let moveRec : MoveRec :=
      { playerId := mv.playerId
        row := mv.row
        col := mv.col
        value := if mv.moveType = .number then mv.value else none
        notes := if mv.moveType = .note then mv.notes else none
        moveType := mv.moveType
        isCorrect := isCorrect
        previousValue :=
          if cell board1 mv.row mv.col = 0 then none
          else some (cell board1 mv.row mv.col)
        previousNotes := some originalNotes
        previousIncorrect := get2 false incorrect1 mv.row mv.col }
    { room :=
        { room with
          board := board1
          notes := notes1
          incorrectCells := incorrect1
          lockedCells := newLockedCells
          errors := newErrors
          isGameOver := gameOver
          isWon := isWon
          totalMoves := st.moves.length + 1 }
      moves := moveRec :: st.moves }

/-- The `POST /api/rooms/:roomId/moves` handler: reject when the game is
over or the target cell is locked; otherwise apply the mutation. -/
def applyMove (st : GameState) (mv : MoveInput) : Option GameState :=
  if st.room.isGameOver then none
  else if get2 false st.room.lockedCells mv.row mv.col then none
  else some (applyMoveActive st mv)

theorem applyMove_eq_of_active {st : GameState} {mv : MoveInput}
    (hgame : st.room.isGameOver = false)
    (hlock : get2 false st.room.lockedCells mv.row mv.col = false) :
    applyMove st mv = some (applyMoveActive st mv) := by
  unfold applyMove
  rw [hgame, hlock]
  rfl

/-- Modelled from the spec: `storage.getLastPlayerMove(roomId, playerId)`
(its implementation is not under src/, only its caller) locates the most
recent move record authored by the player in the room; the log is kept
most-recent-first, so this is the first match. -/
def getLastPlayerMove (moves : List MoveRec) (playerId : Nat) :
    Option MoveRec :=
  moves.find? fun m => m.playerId == playerId

/-- Modelled from the spec: `storage.deleteMove(id)` (not under src/)
removes the located move record; with the most-recent-first log this is the
first record of that player. -/
def deleteMove (moves : List MoveRec) (playerId : Nat) : List MoveRec :=
  moves.eraseP fun m => m.playerId == playerId

/-- The restore performed by the `POST /api/rooms/:roomId/undo/:playerId`
handler once the guards have passed: restore the target cell from the
snapshot (JS `previousValue || 0`, `previousNotes` when it is an array,
`previousIncorrect || false`), delete the move record, recompute the locked
mask as `getAutoLockCells(board, createLockedCells(board))`, and decrement
the error counter iff the undone move was incorrect (`Math.max(0, errors -
x)` is truncated subtraction on `Nat`). -/
def undoRestore (st : GameState) (playerId : Nat) (lastMove : MoveRec) :
    GameState :=
  let room := st.room
  let board := setCell room.board lastMove.row lastMove.col
    (lastMove.previousValue.getD 0)
  let notes2 := set2 room.notes lastMove.row lastMove.col
    (match lastMove.previousNotes with
      | some l => l
      | none => [])
  let incorrect2 := set2 room.incorrectCells lastMove.row lastMove.col
    lastMove.previousIncorrect
  let moves2 := deleteMove st.moves playerId
  let newLockedCells := getAutoLockCells board (createLockedCells board)
  let errors2 := room.errors - (if lastMove.isCorrect then 0 else 1)
  { room :=
      { room with
        board := board
        notes := notes2
        incorrectCells := incorrect2
        lockedCells := newLockedCells
        errors := errors2 }
    moves := moves2 }

/-- The undo handler: reject when the game is over or the player has no
move record; otherwise restore from the player's most recent move. -/
def undo (st : GameState) (playerId : Nat) : Option GameState :=
  if st.room.isGameOver then none
  else
    match getLastPlayerMove st.moves playerId with
    | none => none
    | some lastMove => some (undoRestore st playerId lastMove)

/-! ### Claims C3 and C10: the number branch of the move handler -/

theorem applyMove_some_inv {st : GameState} {mv : MoveInput}
    {st1 : GameState} (h : applyMove st mv = some st1) :
    st.room.isGameOver = false ∧
      get2 false st.room.lockedCells mv.row mv.col = false ∧
      st1 = applyMoveActive st mv := by
  unfold applyMove at h
  by_cases h1 : st.room.isGameOver = true
  · rw [if_pos h1] at h
    exact absurd h (by simp)
  · rw [if_neg h1] at h
    by_cases h2 : get2 false st.room.lockedCells mv.row mv.col = true
    · rw [if_pos h2] at h
      exact absurd h (by simp)
    · rw [if_neg h2] at h
      refine ⟨by simpa using h1, by simpa using h2, ?_⟩
      have := Option.some.inj h
      exact this.symm

/-- Claim C3: in an active room, on an unlocked cell, a number move whose
value equals the solution's entry leaves the incorrect mask clear at the
cell and the error counter unchanged, and a number move with a value in
1..9 different from the solution's entry sets the incorrect mask and
increments the error counter by exactly one. -/
theorem claim_C3 (st : GameState) (pid row col v : Nat)
    (mnotes : Option (List Nat))
    (hgame : st.room.isGameOver = false)
    (hlock : get2 false st.room.lockedCells row col = false)
    (hrow : row < 9) (hcol : col < 9)
    (hdims : dims2 st.room.incorrectCells) :
    (cell st.room.solution row col = v →
      ∃ st1, applyMove st ⟨pid, row, col, some v, mnotes, .number⟩ = some st1 ∧
        get2 false st1.room.incorrectCells row col = false ∧
        st1.room.errors = st.room.errors) ∧
    (cell st.room.solution row col ≠ v → 1 ≤ v → v ≤ 9 →
      ∃ st1, applyMove st ⟨pid, row, col, some v, mnotes, .number⟩ = some st1 ∧
        get2 false st1.room.incorrectCells row col = true ∧
        st1.room.errors = st.room.errors + 1) := by
  constructor
  · intro hsol
    refine ⟨_, applyMove_eq_of_active hgame hlock, ?_, ?_⟩
    · show get2 false
        (set2 st.room.incorrectCells row col
          ((some v).isSome && !(cell st.room.solution row col == v)))
        row col = false
      rw [get2_set2_self false _ hdims hrow hcol]
      simp [hsol]
    · show (if ((some v).isSome && !(cell st.room.solution row col == v))
          then st.room.errors + 1 else st.room.errors) = st.room.errors
      simp [hsol]
  · intro hsol _ _
    refine ⟨_, applyMove_eq_of_active hgame hlock, ?_, ?_⟩
    · show get2 false
        (set2 st.room.incorrectCells row col
          ((some v).isSome && !(cell st.room.solution row col == v)))
        row col = true
      rw [get2_set2_self false _ hdims hrow hcol]
      simp [hsol]
    · show (if ((some v).isSome && !(cell st.room.solution row col == v))
          then st.room.errors + 1 else st.room.errors) = st.room.errors + 1
      simp [hsol]

/-- Witness for C3 on a concrete room: place the correct 8 and then an
incorrect 5 at the two open cells. -/
theorem claim_C3_witness :
    (∃ st1, applyMove
        { room :=
            { board := createPuzzle gridS0 79 badPositions
              solution := gridS0
              notes := List.replicate 9 (List.replicate 9 [])
              lockedCells := createLockedCells (createPuzzle gridS0 79 badPositions)
              incorrectCells := List.replicate 9 (List.replicate 9 false)
              errors := 0
              isGameOver := false
              isWon := false
              totalMoves := 0 }
          moves := [] } ⟨1, 0, 0, some 1, none, .number⟩ = some st1 ∧
        get2 false st1.room.incorrectCells 0 0 = false ∧
        st1.room.errors = 0) :=
  ((claim_C3 _ 1 0 0 1 none (by decide) (by decide) (by decide) (by decide)
    (by decide)).1 (by decide))

/-- Claim C10: a number move carrying value 0 on an unlocked cell of an
active room writes 0 (empty) into the board, yet is recorded as incorrect —
the error counter increments and the incorrect mask is set — because
correctness is `value === null || value === solution[cell]` and the board
write coerces the falsy 0 to 0. -/
theorem claim_C10 (st : GameState) (pid row col : Nat)
    (mnotes : Option (List Nat))
    (hgame : st.room.isGameOver = false)
    (hlock : get2 false st.room.lockedCells row col = false)
    (hrow : row < 9) (hcol : col < 9)
    (hdims : dims2 st.room.incorrectCells) (hb : dims2 st.room.board)
    (hsol : cell st.room.solution row col ≠ 0) :
    ∃ st1, applyMove st ⟨pid, row, col, some 0, mnotes, .number⟩ = some st1 ∧
      cell st1.room.board row col = 0 ∧
      get2 false st1.room.incorrectCells row col = true ∧
      st1.room.errors = st.room.errors + 1 := by
  refine ⟨_, applyMove_eq_of_active hgame hlock, ?_, ?_, ?_⟩
  · show cell (setCell st.room.board row col ((some 0).getD 0)) row col = 0
    exact get2_set2_self 0 _ hb hrow hcol
  · show get2 false
      (set2 st.room.incorrectCells row col
        ((some 0).isSome && !(cell st.room.solution row col == 0)))
      row col = true
    rw [get2_set2_self false _ hdims hrow hcol]
    simp [hsol]
  · show (if ((some 0).isSome && !(cell st.room.solution row col == 0))
        then st.room.errors + 1 else st.room.errors) = st.room.errors + 1
    simp [hsol]

/-- Witness for C10: value 0 sent to an open cell of the concrete room. -/
theorem claim_C10_witness :
    (∃ st1, applyMove
        { room :=
            { board := createPuzzle gridS0 79 badPositions
              solution := gridS0
              notes := List.replicate 9 (List.replicate 9 [])
              lockedCells := createLockedCells (createPuzzle gridS0 79 badPositions)
              incorrectCells := List.replicate 9 (List.replicate 9 false)
              errors := 0
              isGameOver := false
              isWon := false
              totalMoves := 0 }
          moves := [] } ⟨1, 0, 0, some 0, none, .number⟩ = some st1 ∧
        cell st1.room.board 0 0 = 0 ∧
        get2 false st1.room.incorrectCells 0 0 = true ∧
        st1.room.errors = 0 + 1) :=
  claim_C10 _ 1 0 0 none (by decide) (by decide) (by decide) (by decide)
    (by decide) (by decide) (by decide)

/-! ### Claim C4: the undo round-trip -/

theorem dims2_foldl {α β : Type _} (f : List (List α) → β → List (List α))
    (hf : ∀ m x, dims2 m → dims2 (f m x)) :
    ∀ (l : List β) (m : List (List α)), dims2 m → dims2 (List.foldl f m l) := by
  intro l
  induction l with
  | nil => intro m hm; exact hm
  | cons x xs ih => intro m hm; exact ih (f m x) (hf m x hm)

theorem dims2_removeNumber {notes : List (List (List Nat))}
    {row col number : Nat} (hn : dims2 notes) :
    dims2 (removeNumberFromRelatedNotes notes row col number) := by
  unfold removeNumberFromRelatedNotes
  apply dims2_foldl _ (fun m x hm => dims2_foldl _ (fun m' x' hm' =>
    dims2_set2 hm') _ _ hm)
  apply dims2_foldl _ (fun m x hm => dims2_set2 hm)
  apply dims2_foldl _ (fun m x hm => dims2_set2 hm)
  exact hn

theorem undo_after_move {st1 : GameState} {m : MoveRec} {ms : List MoveRec}
    {pid : Nat} (h2 : st1.room.isGameOver = false) (hm : st1.moves = m :: ms)
    (hpid : m.playerId = pid) :
    undo st1 pid = some (undoRestore st1 pid m) := by
  unfold undo
  rw [h2]
  have hfind : getLastPlayerMove st1.moves pid = some m := by
    rw [hm]
    unfold getLastPlayerMove
    exact List.find?_cons_of_pos _ (by simp [hpid])
  rw [hfind]
  rfl

theorem dims2_applyMoveActive_notes (st : GameState) (mv : MoveInput)
    (hn : dims2 st.room.notes) : dims2 (applyMoveActive st mv).room.notes := by
  obtain ⟨pid, row, col, value, mnotes, mtype⟩ := mv
  cases mtype with
  | note => exact dims2_set2 hn
  | clear => exact dims2_set2 hn
  | number =>
    rcases value with _ | v
    · exact dims2_set2 hn
    · dsimp only [applyMoveActive]
      rcases hq : (cell st.room.solution row col == v) with _ | _
      · exact dims2_set2 hn
      · exact dims2_removeNumber (dims2_set2 hn)

theorem dims2_applyMoveActive_board (st : GameState) (mv : MoveInput)
    (hb : dims2 st.room.board) : dims2 (applyMoveActive st mv).room.board := by
  obtain ⟨pid, row, col, value, mnotes, mtype⟩ := mv
  cases mtype with
  | note => exact hb
  | clear => exact dims2_set2 hb
  | number => exact dims2_set2 hb

theorem dims2_applyMoveActive_incorrect (st : GameState) (mv : MoveInput)
    (hi : dims2 st.room.incorrectCells) :
    dims2 (applyMoveActive st mv).room.incorrectCells := by
  obtain ⟨pid, row, col, value, mnotes, mtype⟩ := mv
  cases mtype with
  | note => exact hi
  | clear => exact dims2_set2 hi
  | number => exact dims2_set2 hi

theorem setCell_prev_self {B : Grid} {row col : Nat} (hB : dims2 B)
    (hrow : row < 9) (hcol : col < 9) :
    cell (setCell B row col
      ((if cell B row col = 0 then none
        else some (cell B row col)).getD 0)) row col = cell B row col := by
  have hgd : ((if cell B row col = 0 then none
      else some (cell B row col)).getD 0) = cell B row col := by
    split
    · simp only [Option.getD_none]
      omega
    · simp
  rw [hgd]
  exact get2_set2_self 0 _ hB hrow hcol

/-- The concrete room of the C4 scenario: puzzle dealt from `gridS0` with
the two `badPositions` cells open, no moves yet. -/
def stC4room : GameState :=
  { room :=
      { board := createPuzzle gridS0 79 badPositions
        solution := gridS0
        notes := List.replicate 9 (List.replicate 9 [])
        lockedCells := createLockedCells (createPuzzle gridS0 79 badPositions)
        incorrectCells := List.replicate 9 (List.replicate 9 false)
        errors := 0
        isGameOver := false
        isWon := false
        totalMoves := 0 }
    moves := [] }

/-- Counterexample to C4 as stated: an incorrect 5 played at the open cell
(0,0) of the concrete room (pre-move value 0, incorrect flag false), then
undone by the same player.  The move record's snapshot was taken from
shallow copies after the mutation, so it stored previousValue = 5 and
previousIncorrect = true; the undo writes those back, leaving the 5 on the
board and the incorrect flag set.  The tuple is (pre-move board value,
post-undo board value, post-undo incorrect flag). -/
theorem claim_C4_counterexample :
    ((applyMove stC4room ⟨1, 0, 0, some 5, none, .number⟩).bind fun st1 =>
      (undo st1 1).map fun st2 =>
        (cell (createPuzzle gridS0 79 badPositions) 0 0,
         cell st2.room.board 0 0,
         get2 false st2.room.incorrectCells 0 0))
      = some (0, 5, true) := by decide

/-- Claim C4 (amended): after any single applyMove (number, note or clear)
on an active room, followed immediately by an undo issued by the same
player while the room is still non-terminal, `notes[cell]` and the error
counter are restored to their pre-move values, but `board[cell]` and
`incorrectMask[cell]` keep their POST-move values: the record's
previousValue/previousIncorrect come from shallow copies that alias the
mutated rows, so the undo writes back what the move wrote (a number move's
value and incorrect flag stay; a cleared cell stays empty).  Only note
moves round-trip fully, since they touch neither field. -/
theorem claim_C4 (st : GameState) (mv : MoveInput) (st1 : GameState)
    (hrow : mv.row < 9) (hcol : mv.col < 9)
    (hb : dims2 st.room.board) (hn : dims2 st.room.notes)
    (hi : dims2 st.room.incorrectCells)
    (h1 : applyMove st mv = some st1)
    (h2 : st1.room.isGameOver = false) :
    ∃ st2, undo st1 mv.playerId = some st2 ∧
      cell st2.room.board mv.row mv.col
        = cell st1.room.board mv.row mv.col ∧
      get2 [] st2.room.notes mv.row mv.col
        = get2 [] st.room.notes mv.row mv.col ∧
      get2 false st2.room.incorrectCells mv.row mv.col
        = get2 false st1.room.incorrectCells mv.row mv.col ∧
      st2.room.errors = st.room.errors := by
  obtain ⟨hgame, hlock, rfl⟩ := applyMove_some_inv h1
  obtain ⟨pid, row, col, value, mnotes, mtype⟩ := mv
  cases mtype with
  | number =>
    refine ⟨_, undo_after_move h2 rfl rfl, ?_, ?_, ?_, ?_⟩
    · have hB : dims2 (applyMoveActive st
          ⟨pid, row, col, value, mnotes, MoveType.number⟩).room.board :=
        dims2_applyMoveActive_board st _ hb
      dsimp only [undoRestore]
      exact setCell_prev_self hB hrow hcol
    · have hd : dims2 (applyMoveActive st
          ⟨pid, row, col, value, mnotes, MoveType.number⟩).room.notes :=
        dims2_applyMoveActive_notes st _ hn
      dsimp only [undoRestore]
      exact get2_set2_self [] _ hd hrow hcol
    · have hI : dims2 (applyMoveActive st
          ⟨pid, row, col, value, mnotes, MoveType.number⟩).room.incorrectCells :=
        dims2_applyMoveActive_incorrect st _ hi
      dsimp only [undoRestore]
      exact get2_set2_self false _ hI hrow hcol
    · dsimp only [undoRestore, applyMoveActive]
      rcases value with _ | v
      · simp
      · rcases hc : (cell st.room.solution row col == v) with _ | _
        · simp [hc]
        · simp [hc]
  | note =>
    refine ⟨_, undo_after_move h2 rfl rfl, ?_, ?_, ?_, ?_⟩
    · have hB : dims2 (applyMoveActive st
          ⟨pid, row, col, value, mnotes, MoveType.note⟩).room.board :=
        dims2_applyMoveActive_board st _ hb
      dsimp only [undoRestore]
      exact setCell_prev_self hB hrow hcol
    · have hd : dims2 (applyMoveActive st
          ⟨pid, row, col, value, mnotes, MoveType.note⟩).room.notes :=
        dims2_applyMoveActive_notes st _ hn
      dsimp only [undoRestore]
      exact get2_set2_self [] _ hd hrow hcol
    · have hI : dims2 (applyMoveActive st
          ⟨pid, row, col, value, mnotes, MoveType.note⟩).room.incorrectCells :=
        dims2_applyMoveActive_incorrect st _ hi
      dsimp only [undoRestore]
      exact get2_set2_self false _ hI hrow hcol
    · show st.room.errors - 0 = st.room.errors
      omega
  | clear =>
    refine ⟨_, undo_after_move h2 rfl rfl, ?_, ?_, ?_, ?_⟩
    · have hB : dims2 (applyMoveActive st
          ⟨pid, row, col, value, mnotes, MoveType.clear⟩).room.board :=
        dims2_applyMoveActive_board st _ hb
      dsimp only [undoRestore]
      exact setCell_prev_self hB hrow hcol
    · have hd : dims2 (applyMoveActive st
          ⟨pid, row, col, value, mnotes, MoveType.clear⟩).room.notes :=
        dims2_applyMoveActive_notes st _ hn
      dsimp only [undoRestore]
      exact get2_set2_self [] _ hd hrow hcol
    · have hI : dims2 (applyMoveActive st
          ⟨pid, row, col, value, mnotes, MoveType.clear⟩).room.incorrectCells :=
        dims2_applyMoveActive_incorrect st _ hi
      dsimp only [undoRestore]
      exact get2_set2_self false _ hI hrow hcol
    · show st.room.errors - 0 = st.room.errors
      omega

/-- Witness for (amended) C4: the incorrect 5 at (0,0) and its undo — the
notes and error counter round-trip, while the board cell and the incorrect
flag stay at their post-move values. -/
theorem claim_C4_witness :
    (∃ st2, undo (applyMoveActive stC4room
        ⟨1, 0, 0, some 5, none, .number⟩) 1 = some st2 ∧
      cell st2.room.board 0 0
        = cell (applyMoveActive stC4room
            ⟨1, 0, 0, some 5, none, .number⟩).room.board 0 0 ∧
      get2 [] st2.room.notes 0 0
        = get2 [] (List.replicate 9 (List.replicate 9 ([] : List Nat))) 0 0 ∧
      get2 false st2.room.incorrectCells 0 0
        = get2 false (applyMoveActive stC4room
            ⟨1, 0, 0, some 5, none, .number⟩).room.incorrectCells 0 0 ∧
      st2.room.errors = 0) :=
  claim_C4 stC4room ⟨1, 0, 0, some 5, none, .number⟩ _
    (by decide) (by decide) (by decide) (by decide) (by decide) rfl (by decide)

/-! ### Claim C2: what auto-locking does and does not guarantee -/

/-- `gridS0` with the last two cells of row 0 cleared: the dealt board of
the C2 scenario. -/
def boardC2 : Grid := setCell (setCell gridS0 0 7 0) 0 8 0

/-- A room dealt from `boardC2` with solution `gridS0`: the two open cells
(0,7) and (0,8) hold 8 and 9 in the solution, but filling them with 9 and 8
instead completes row 0 without any duplicate. -/
def stC2 : GameState :=
  { room :=
      { board := boardC2
        solution := gridS0
        notes := List.replicate 9 (List.replicate 9 [])
        lockedCells := createLockedCells boardC2
        incorrectCells := List.replicate 9 (List.replicate 9 false)
        errors := 0
        isGameOver := false
        isWon := false
        totalMoves := 0 }
    moves := [] }

/-- Counterexample to C2 as stated: play 9 at (0,7) and 8 at (0,8) (both
wrong — the solution has 8 and 9 there).  Cell (0,8) goes from unlocked to
locked at the second move, yet the board holds 8 where the solution holds
9: a cell can become locked while its value is incorrect, because the
completeness scan only checks for duplicates, not for agreement with the
solution. -/
theorem claim_C2_counterexample :
    ((applyMove stC2 ⟨1, 0, 7, some 9, none, .number⟩).bind fun st1 =>
      (applyMove st1 ⟨1, 0, 8, some 8, none, .number⟩).map fun st2 =>
        (get2 false st1.room.lockedCells 0 8,
         get2 false st2.room.lockedCells 0 8,
         cell st2.room.board 0 8,
         cell st2.room.solution 0 8))
      = some (false, true, 8, 9) := by decide

theorem applyMoveActive_lockedCells (st : GameState) (mv : MoveInput) :
    (applyMoveActive st mv).room.lockedCells
      = getAutoLockCells (applyMoveActive st mv).room.board
          st.room.lockedCells := by
  obtain ⟨pid, row, col, value, mnotes, mtype⟩ := mv
  cases mtype <;> rfl

/-- Claim C2 (amended): when a cell becomes locked by the auto-lock
recomputation after an accepted move, its row, column or block is complete
and duplicate-free in the post-move board.  The locked cell's value need
NOT equal the solution's: see the counterexample. -/
theorem claim_C2 (st : GameState) (mv : MoveInput) (st1 : GameState)
    (hlk : dims2 st.room.lockedCells)
    (h1 : applyMove st mv = some st1) (r c : Fin 9)
    (hold : get2 false st.room.lockedCells r c = false)
    (hnew : get2 false st1.room.lockedCells r c = true) :
    isRowComplete st1.room.board r = true ∨
      isColumnComplete st1.room.board c = true ∨
      isBlockComplete st1.room.board ((r : Nat) / 3) ((c : Nat) / 3)
        = true := by
  obtain ⟨hgame, hlock, rfl⟩ := applyMove_some_inv h1
  rw [applyMoveActive_lockedCells st mv] at hnew
  rcases (getAutoLockCells_get hlk r c).mp hnew with h | h | h | h
  · rw [hold] at h
    exact absurd h (by simp)
  · exact Or.inl h
  · exact Or.inr (Or.inl h)
  · exact Or.inr (Or.inr h)

/-- Witness for (amended) C2 on the concrete scenario: after the second
move locks (0,8), row 0 is indeed complete. -/
theorem claim_C2_witness :
    (isRowComplete (applyMoveActive (applyMoveActive stC2
        ⟨1, 0, 7, some 9, none, .number⟩)
        ⟨1, 0, 8, some 8, none, .number⟩).room.board 0 = true ∨
      isColumnComplete (applyMoveActive (applyMoveActive stC2
        ⟨1, 0, 7, some 9, none, .number⟩)
        ⟨1, 0, 8, some 8, none, .number⟩).room.board 8 = true ∨
      isBlockComplete (applyMoveActive (applyMoveActive stC2
        ⟨1, 0, 7, some 9, none, .number⟩)
        ⟨1, 0, 8, some 8, none, .number⟩).room.board 0 2 = true) :=
  claim_C2 (applyMoveActive stC2 ⟨1, 0, 7, some 9, none, .number⟩)
    ⟨1, 0, 8, some 8, none, .number⟩ _ (by decide) rfl 0 8
    (by decide) (by decide)

/-! ### Claim C5: the locked mask after an undo -/

theorem undo_some_inv {st : GameState} {pid : Nat} {st2 : GameState}
    (h : undo st pid = some st2) :
    st.room.isGameOver = false ∧
      ∃ m, getLastPlayerMove st.moves pid = some m ∧
        st2 = undoRestore st pid m := by
  unfold undo at h
  by_cases h1 : st.room.isGameOver = true
  · rw [if_pos h1] at h
    exact absurd h (by simp)
  · rw [if_neg h1] at h
    rcases hm : getLastPlayerMove st.moves pid with _ | m
    · rw [hm] at h
      exact absurd h (by simp)
    · rw [hm] at h
      exact ⟨by simpa using h1, m, rfl, (Option.some.inj h).symm⟩

theorem getD_map_lt {α β : Type _} (f : α → β) (l : List α) (n : Nat)
    (d : α) (d' : β) (h : n < l.length) :
    (l.map f).getD n d' = f (l.getD n d) := by
  induction l generalizing n with
  | nil => simp at h
  | cons a t ih =>
    cases n with
    | zero => rfl
    | succ m => simpa using ih m (by simpa using h)

theorem dims2_createLockedCells {board : Grid} (hb : dims2 board) :
    dims2 (createLockedCells board) := by
  obtain ⟨h1, h2⟩ := hb
  refine ⟨by simpa [createLockedCells] using h1, ?_⟩
  intro row hrow
  rw [createLockedCells, List.mem_map] at hrow
  obtain ⟨row0, hmem, rfl⟩ := hrow
  simpa using h2 row0 hmem

theorem createLockedCells_get {board : Grid} (hb : dims2 board)
    {r c : Nat} (hr : r < 9) (hc : c < 9) :
    get2 false (createLockedCells board) r c = (cell board r c != 0) := by
  have hrlen : r < board.length := by rw [hb.1]; exact hr
  have hrow : (board.getD r []).length = 9 := rowLen_of_dims2 hb hr
  unfold createLockedCells get2 cell
  rw [getD_map_lt _ _ _ [] _ hrlen]
  rw [getD_map_lt _ _ _ 0 _ (by rw [hrow]; exact hc)]
  rfl

/-- The dealt board of the C5 scenario: `gridS0` with THREE cells of row 0
cleared, (0,6), (0,7) and (0,8), so that row 0 stays incomplete throughout. -/
def boardC5 : Grid := setCell boardC2 0 6 0

/-- A room dealt from `boardC5` with solution `gridS0`. -/
def stC5 : GameState :=
  { room :=
      { board := boardC5
        solution := gridS0
        notes := List.replicate 9 (List.replicate 9 [])
        lockedCells := createLockedCells boardC5
        incorrectCells := List.replicate 9 (List.replicate 9 false)
        errors := 0
        isGameOver := false
        isWon := false
        totalMoves := 0 }
    moves := [] }

/-- Counterexample to C5 as stated: play the wrong 9 at (0,7) and the
wrong 8 at (0,8) of the three-hole room, then undo.  The undo reverts the
(0,8) move (its post-move snapshot keeps the 8 on the board); cell (0,7)
was NOT a given (the dealt board holds 0 there), and in the post-undo
board its row is incomplete (hole at (0,6)) and its column and box scans
fail, yet it stays locked — the recompute seeds the mask with
`createLockedCells` of the CURRENT board (every non-empty cell), not with
the original givens.  The tuple is (post-undo locked at (0,7), dealt board
at (0,7), row-0 / column-7 / block-(0,2) completeness of the post-undo
board). -/
theorem claim_C5_counterexample :
    ((applyMove stC5 ⟨1, 0, 7, some 9, none, .number⟩).bind fun st1 =>
      (applyMove st1 ⟨1, 0, 8, some 8, none, .number⟩).bind fun st2 =>
      (undo st2 1).map fun st3 =>
        (get2 false st3.room.lockedCells 0 7,
         cell boardC5 0 7,
         isRowComplete st3.room.board 0,
         isColumnComplete st3.room.board 7,
         isBlockComplete st3.room.board 0 2))
      = some (true, 0, false, false, false) := by decide

/-- Claim C5 (amended): after a successful undo the locked mask is
`getAutoLockCells(board, createLockedCells(board))` over the post-restore
board, so a cell is locked exactly when it currently holds a non-zero
value — regardless of whether it was a given at deal time or lies in a
complete unit (completed units consist of non-zero cells, so they add
nothing to the seed mask). -/
theorem claim_C5 (st : GameState) (pid : Nat) (st2 : GameState)
    (hb : dims2 st.room.board)
    (h : undo st pid = some st2) (r c : Fin 9) :
    (get2 false st2.room.lockedCells r c = true ↔
      cell st2.room.board r c ≠ 0) := by
  obtain ⟨hgame, m, hm, rfl⟩ := undo_some_inv h
  have hb2 : dims2 (undoRestore st pid m).room.board := by
    dsimp only [undoRestore]
    exact dims2_set2 hb
  have hrl : (undoRestore st pid m).room.lockedCells
      = getAutoLockCells (undoRestore st pid m).room.board
        (createLockedCells (undoRestore st pid m).room.board) := rfl
  rw [hrl]
  rw [getAutoLockCells_get (dims2_createLockedCells hb2) r c]
  rw [createLockedCells_get hb2 r.isLt c.isLt]
  constructor
  · rintro (h1 | h1 | h1 | h1)
    · simpa using h1
    · exact scanUnit_nonzero h1 (r, c) (mem_rowCells.mpr ⟨rfl, c.isLt⟩)
    · exact scanUnit_nonzero h1 (r, c) (mem_colCells.mpr ⟨rfl, r.isLt⟩)
    · exact scanUnit_nonzero h1 (r, c)
        ((mem_blockCells r.isLt c.isLt).mpr ⟨rfl, rfl⟩)
  · intro h1
    exact Or.inl (by simpa using h1)

/-- Witness for (amended) C5: after the undo of the C5 scenario, cell
(0,7) is locked iff it is non-empty (it holds the wrongly-placed 9). -/
theorem claim_C5_witness :
    (get2 false (undoRestore (applyMoveActive (applyMoveActive stC2
        ⟨1, 0, 7, some 9, none, .number⟩) ⟨1, 0, 8, some 8, none, .number⟩) 1
        ⟨1, 0, 8, some 8, none, .number, false, some 8, some [], true⟩
        ).room.lockedCells 0 7 = true ↔
      cell (undoRestore (applyMoveActive (applyMoveActive stC2
        ⟨1, 0, 7, some 9, none, .number⟩) ⟨1, 0, 8, some 8, none, .number⟩) 1
        ⟨1, 0, 8, some 8, none, .number, false, some 8, some [], true⟩
        ).room.board 0 7 ≠ 0) :=
  claim_C5 (applyMoveActive (applyMoveActive stC2
      ⟨1, 0, 7, some 9, none, .number⟩) ⟨1, 0, 8, some 8, none, .number⟩) 1 _
    (by decide) (by decide) 0 7

/-! ### Claim C8: the logic-only solver `canSolveWithLogic`

The `while (changed)` loop of the source mutates a working copy in place;
we thread the grid and the `changed` flag explicitly, and model the
mid-pass `return false` with `Option`.  Each flagged iteration fills at
least one empty cell, so 82 units of fuel always cover the loop. -/

/-- The `used` set of `getPossibleValues`: `num` occurs (as a non-zero
entry) in the row, the column, or the 3x3 box of `(row, col)`. -/
def usedInUnits (g : Grid) (row col num : Nat) : Bool :=
  ((List.range 9).any fun c => cell g row c != 0 && (cell g row c == num)) ||
  ((List.range 9).any fun r => cell g r col != 0 && (cell g r col == num)) ||
  ((List.range 3).any fun i => (List.range 3).any fun j =>
    cell g (row / 3 * 3 + i) (col / 3 * 3 + j) != 0 &&
      (cell g (row / 3 * 3 + i) (col / 3 * 3 + j) == num))

/-- `getPossibleValues(board, row, col)` from sudoku.ts: the empty list on
a filled cell, otherwise 1..9 minus the values already used in the cell's
row, column and box, in ascending order. -/
def getPossibleValues (g : Grid) (row col : Nat) : List Nat :=
  if cell g row col != 0 then []
  else
    (List.range 9).filterMap fun k =>
      if usedInUnits g row col (k + 1) then none else some (k + 1)

/-- One cell of the naked-singles sweep (Strategy 1), threaded over the
`Option` failure monad: an empty cell with exactly one candidate is filled
and flags `changed`; an empty cell with zero candidates aborts the whole
call (`return false`). -/
def nakedStep (acc : Option (Grid × Bool)) (p : Nat × Nat) :
    Option (Grid × Bool) :=
  match acc with
  | none => none
  | some (g, ch) =>
    if cell g p.1 p.2 == 0 then
      match getPossibleValues g p.1 p.2 with
      | [v] => some (setCell g p.1 p.2 v, true)
      | [] => none
      | _ => some (g, ch)
    else some (g, ch)

/-- The row-major naked-singles pass of `canSolveWithLogic`. -/
def nakedPass (g : Grid) (ch : Bool) : Option (Grid × Bool) :=
  positions81.foldl nakedStep (some (g, ch))

/-- One (row, num) step of the hidden-singles row scan (Strategy 2): if
exactly one empty cell of the row admits `num`, fill it. -/
def hiddenRowStep (st : Grid × Bool) (row num : Nat) : Grid × Bool :=
  match (List.range 9).filter (fun col =>
      cell st.1 row col == 0 &&
        (getPossibleValues st.1 row col).contains num) with
  | [c0] => (setCell st.1 row c0 num, true)
  | _ => st

/-- The hidden-singles pass over rows. -/
def hiddenRowsPass (st : Grid × Bool) : Grid × Bool :=
  (List.range 9).foldl (fun acc row =>
    (List.range 9).foldl (fun acc2 k => hiddenRowStep acc2 row (k + 1)) acc)
    st

/-- One (col, num) step of the hidden-singles column scan. -/
def hiddenColStep (st : Grid × Bool) (col num : Nat) : Grid × Bool :=
  match (List.range 9).filter (fun row =>
      cell st.1 row col == 0 &&
        (getPossibleValues st.1 row col).contains num) with
  | [r0] => (setCell st.1 r0 col num, true)
  | _ => st

/-- The hidden-singles pass over columns. -/
def hiddenColsPass (st : Grid × Bool) : Grid × Bool :=
  (List.range 9).foldl (fun acc col =>
    (List.range 9).foldl (fun acc2 k => hiddenColStep acc2 col (k + 1)) acc)
    st

/-- One (box, num) step of the hidden-singles box scan. -/
def hiddenBoxStep (st : Grid × Bool) (br bc num : Nat) : Grid × Bool :=
  match (blockCells br bc).filter (fun p =>
      cell st.1 p.1 p.2 == 0 &&
        (getPossibleValues st.1 p.1 p.2).contains num) with
  | [p0] => (setCell st.1 p0.1 p0.2 num, true)
  | _ => st

/-- The hidden-singles pass over the nine boxes. -/
def hiddenBoxesPass (st : Grid × Bool) : Grid × Bool :=
  blockCoords.foldl (fun acc q =>
    (List.range 9).foldl (fun acc2 k => hiddenBoxStep acc2 q.1 q.2 (k + 1))
      acc) st

/-- The three hidden-singles passes in source order. -/
def hiddenPasses (st : Grid × Bool) : Grid × Bool :=
  hiddenBoxesPass (hiddenColsPass (hiddenRowsPass st))

/-- One iteration of the `while (changed)` body: `changed` is reset to
false, then the naked pass (which can abort) and the three hidden passes
run in order. -/
def logicPass (g : Grid) : Option (Grid × Bool) :=
  match nakedPass g false with
  | none => none
  | some st1 => some (hiddenPasses st1)

/-- The `while (changed)` loop with explicit fuel. -/
def solveLoop : Nat → Grid → Option Grid
  | 0, g => some g
  | fuel + 1, g =>
    match logicPass g with
    | none => none
    | some (g1, true) => solveLoop fuel g1
    | some (g1, false) => some g1

/-- `canSolveWithLogic(board)` from sudoku.ts: run propagation to failure
or to a fixed point, then test completeness. -/
def canSolveWithLogic (g : Grid) : Bool :=
  match solveLoop 82 g with
  | none => false
  | some g1 => isCompleted g1

/-- One flagged iteration of the propagation loop. -/
def stepRel (g g' : Grid) : Prop := logicPass g = some (g', true)

/-- A propagation dead-end: sweeping the naked-singles pass in row-major
order from `g` reaches some empty cell whose candidate list is empty (the
`return false` of the source).  `h` is the working grid at that moment. -/
def deadEnd (g : Grid) : Prop :=
  ∃ l1 p l2 h ch2, positions81 = l1 ++ p :: l2 ∧
    l1.foldl nakedStep (some (g, false)) = some (h, ch2) ∧
    cell h p.1 p.2 = 0 ∧ getPossibleValues h p.1 p.2 = []

/-- A step either leaves the state untouched or fills at least one empty
cell and raises the `changed` flag. -/
def StepOK (f : Grid × Bool → Grid × Bool) : Prop :=
  ∀ st : Grid × Bool, dims2 st.1 → f st = st ∨
    (dims2 (f st).1 ∧ emptyCount (f st).1 < emptyCount st.1 ∧
      (f st).2 = true)

theorem getPossibleValues_ne_zero {g : Grid} {row col v : Nat}
    (h : v ∈ getPossibleValues g row col) : v ≠ 0 := by
  unfold getPossibleValues at h
  split at h
  · exact absurd h (by simp)
  · rw [List.mem_filterMap] at h
    obtain ⟨k, _, hf⟩ := h
    split at hf
    · exact absurd hf (by simp)
    · have hv := Option.some.inj hf
      omega

theorem stepOK_of_cases {f : Grid × Bool → Grid × Bool}
    (hf : ∀ st : Grid × Bool, dims2 st.1 → f st = st ∨
      ∃ r c v, r < 9 ∧ c < 9 ∧ cell st.1 r c = 0 ∧ v ≠ 0 ∧
        f st = (setCell st.1 r c v, true)) : StepOK f := by
  intro st hd
  rcases hf st hd with h | ⟨r, c, v, hr, hc, h0, hv, h⟩
  · exact Or.inl h
  · right
    rw [h]
    exact ⟨dims2_set2 hd,
      @emptyCount_setCell_lt st.1 ⟨r, hr⟩ ⟨c, hc⟩ v hd h0 hv, rfl⟩

theorem stepOK_comp {f g : Grid × Bool → Grid × Bool}
    (hf : StepOK f) (hg : StepOK g) : StepOK (fun st => g (f st)) := by
  intro st hd
  dsimp only
  rcases hf st hd with h1 | ⟨hd1, hlt1, hfl1⟩
  · rw [h1]
    exact hg st hd
  · rcases hg (f st) hd1 with h2 | ⟨hd2, hlt2, hfl2⟩
    · rw [h2]
      exact Or.inr ⟨hd1, hlt1, hfl1⟩
    · exact Or.inr ⟨hd2, lt_trans hlt2 hlt1, hfl2⟩

theorem stepOK_foldl {ι : Type _} (s : Grid × Bool → ι → Grid × Bool)
    (l : List ι) (hs : ∀ i ∈ l, StepOK (fun st => s st i)) :
    StepOK (fun st => l.foldl s st) := by
  induction l with
  | nil => exact fun st _ => Or.inl rfl
  | cons x xs ih =>
    intro st hd
    exact stepOK_comp (hs x (List.mem_cons_self x xs))
      (ih fun i hi => hs i (List.mem_cons_of_mem x hi)) st hd

theorem hiddenRowStep_cases (st : Grid × Bool) (row num : Nat)
    (hrow : row < 9) (hnum : num ≠ 0) :
    hiddenRowStep st row num = st ∨
      ∃ r c v, r < 9 ∧ c < 9 ∧ cell st.1 r c = 0 ∧ v ≠ 0 ∧
        hiddenRowStep st row num = (setCell st.1 r c v, true) := by
  rcases hm : (List.range 9).filter (fun col =>
      cell st.1 row col == 0 &&
        (getPossibleValues st.1 row col).contains num)
    with _ | ⟨c0, rest⟩
  · left
    unfold hiddenRowStep
    rw [hm]
  · rcases rest with _ | ⟨c1, rest2⟩
    · right
      have hc0 : c0 ∈ (List.range 9).filter (fun col =>
          cell st.1 row col == 0 &&
            (getPossibleValues st.1 row col).contains num) := by
        rw [hm]
        exact List.mem_cons_self c0 []
      rw [List.mem_filter] at hc0
      obtain ⟨hc9, hcond⟩ := hc0
      rw [Bool.and_eq_true] at hcond
      refine ⟨row, c0, num, hrow, List.mem_range.mp hc9, ?_, hnum, ?_⟩
      · simpa using hcond.1
      · unfold hiddenRowStep
        rw [hm]
    · left
      unfold hiddenRowStep
      rw [hm]

theorem hiddenColStep_cases (st : Grid × Bool) (col num : Nat)
    (hcol : col < 9) (hnum : num ≠ 0) :
    hiddenColStep st col num = st ∨
      ∃ r c v, r < 9 ∧ c < 9 ∧ cell st.1 r c = 0 ∧ v ≠ 0 ∧
        hiddenColStep st col num = (setCell st.1 r c v, true) := by
  rcases hm : (List.range 9).filter (fun row =>
      cell st.1 row col == 0 &&
        (getPossibleValues st.1 row col).contains num)
    with _ | ⟨r0, rest⟩
  · left
    unfold hiddenColStep
    rw [hm]
  · rcases rest with _ | ⟨r1, rest2⟩
    · right
      have hr0 : r0 ∈ (List.range 9).filter (fun row =>
          cell st.1 row col == 0 &&
            (getPossibleValues st.1 row col).contains num) := by
        rw [hm]
        exact List.mem_cons_self r0 []
      rw [List.mem_filter] at hr0
      obtain ⟨hr9, hcond⟩ := hr0
      rw [Bool.and_eq_true] at hcond
      refine ⟨r0, col, num, List.mem_range.mp hr9, hcol, ?_, hnum, ?_⟩
      · simpa using hcond.1
      · unfold hiddenColStep
        rw [hm]
    · left
      unfold hiddenColStep
      rw [hm]

theorem hiddenBoxStep_cases (st : Grid × Bool) (br bc num : Nat)
    (hbr : br < 3) (hbc : bc < 3) (hnum : num ≠ 0) :
    hiddenBoxStep st br bc num = st ∨
      ∃ r c v, r < 9 ∧ c < 9 ∧ cell st.1 r c = 0 ∧ v ≠ 0 ∧
        hiddenBoxStep st br bc num = (setCell st.1 r c v, true) := by
  rcases hm : (blockCells br bc).filter (fun p =>
      cell st.1 p.1 p.2 == 0 &&
        (getPossibleValues st.1 p.1 p.2).contains num)
    with _ | ⟨p0, rest⟩
  · left
    unfold hiddenBoxStep
    rw [hm]
  · rcases rest with _ | ⟨p1, rest2⟩
    · right
      have hp0 : p0 ∈ (blockCells br bc).filter (fun p =>
          cell st.1 p.1 p.2 == 0 &&
            (getPossibleValues st.1 p.1 p.2).contains num) := by
        rw [hm]
        exact List.mem_cons_self p0 []
      rw [List.mem_filter] at hp0
      obtain ⟨hmem, hcond⟩ := hp0
      rw [Bool.and_eq_true] at hcond
      simp only [blockCells, List.mem_flatMap, List.mem_map,
        List.mem_range] at hmem
      obtain ⟨i, hi, j, hj, hpeq⟩ := hmem
      have h1 : p0.1 = br * 3 + i := by rw [← hpeq]
      have h2 : p0.2 = bc * 3 + j := by rw [← hpeq]
      refine ⟨p0.1, p0.2, num, by omega, by omega, ?_, hnum, ?_⟩
      · simpa using hcond.1
      · unfold hiddenBoxStep
        rw [hm]
    · left
      unfold hiddenBoxStep
      rw [hm]

theorem stepOK_hiddenRowsPass : StepOK hiddenRowsPass := by
  have h : StepOK (fun st => (List.range 9).foldl (fun acc row =>
      (List.range 9).foldl (fun acc2 k => hiddenRowStep acc2 row (k + 1))
        acc) st) := by
    apply stepOK_foldl
    intro row hrow
    apply stepOK_foldl
    intro k _
    exact stepOK_of_cases fun st _ =>
      hiddenRowStep_cases st row (k + 1) (List.mem_range.mp hrow)
        (Nat.succ_ne_zero k)
  exact h

theorem stepOK_hiddenColsPass : StepOK hiddenColsPass := by
  have h : StepOK (fun st => (List.range 9).foldl (fun acc col =>
      (List.range 9).foldl (fun acc2 k => hiddenColStep acc2 col (k + 1))
        acc) st) := by
    apply stepOK_foldl
    intro col hcol
    apply stepOK_foldl
    intro k _
    exact stepOK_of_cases fun st _ =>
      hiddenColStep_cases st col (k + 1) (List.mem_range.mp hcol)
        (Nat.succ_ne_zero k)
  exact h

theorem stepOK_hiddenBoxesPass : StepOK hiddenBoxesPass := by
  have h : StepOK (fun st => blockCoords.foldl (fun acc q =>
      (List.range 9).foldl
        (fun acc2 k => hiddenBoxStep acc2 q.1 q.2 (k + 1)) acc) st) := by
    apply stepOK_foldl
    intro q hq
    apply stepOK_foldl
    intro k _
    exact stepOK_of_cases fun st _ =>
      hiddenBoxStep_cases st q.1 q.2 (k + 1) (mem_blockCoords.mp hq).1
        (mem_blockCoords.mp hq).2 (Nat.succ_ne_zero k)
  exact h

theorem stepOK_hiddenPasses : StepOK hiddenPasses := by
  have h := stepOK_comp stepOK_hiddenRowsPass
    (stepOK_comp stepOK_hiddenColsPass stepOK_hiddenBoxesPass)
  exact h

theorem nakedFold_none_start : ∀ (l : List (Nat × Nat)),
    l.foldl nakedStep none = none := by
  intro l
  induction l with
  | nil => rfl
  | cons q qs ih =>
    rw [List.foldl_cons]
    exact ih

theorem nakedFold_cases : ∀ (l : List (Nat × Nat)) (g : Grid) (ch : Bool),
    (∀ p ∈ l, p.1 < 9 ∧ p.2 < 9) → dims2 g →
    l.foldl nakedStep (some (g, ch)) = none ∨
      l.foldl nakedStep (some (g, ch)) = some (g, ch) ∨
      ∃ g1, l.foldl nakedStep (some (g, ch)) = some (g1, true) ∧
        dims2 g1 ∧ emptyCount g1 < emptyCount g := by
  intro l
  induction l with
  | nil =>
    intro g ch _ _
    exact Or.inr (Or.inl rfl)
  | cons q qs ih =>
    intro g ch hb hd
    have hb' : ∀ p ∈ qs, p.1 < 9 ∧ p.2 < 9 :=
      fun p hp => hb p (List.mem_cons_of_mem q hp)
    obtain ⟨hq1, hq2⟩ := hb q (List.mem_cons_self q qs)
    rw [List.foldl_cons]
    by_cases hz : (cell g q.1 q.2 == 0) = true
    · rcases hp : getPossibleValues g q.1 q.2 with _ | ⟨v, rest⟩
      · have hstep : nakedStep (some (g, ch)) q = none := by
          simp only [nakedStep]
          rw [if_pos hz, hp]
        rw [hstep]
        left
        exact nakedFold_none_start qs
      · rcases rest with _ | ⟨w, rest2⟩
        · have hstep : nakedStep (some (g, ch)) q
              = some (setCell g q.1 q.2 v, true) := by
            simp only [nakedStep]
            rw [if_pos hz, hp]
          have hv0 : v ≠ 0 := getPossibleValues_ne_zero
            (by rw [hp]; exact List.mem_cons_self v [])
          have h0 : cell g q.1 q.2 = 0 := by simpa using hz
          have hlt : emptyCount (setCell g q.1 q.2 v) < emptyCount g :=
            @emptyCount_setCell_lt g ⟨q.1, hq1⟩ ⟨q.2, hq2⟩ v hd h0 hv0
          rw [hstep]
          rcases ih (setCell g q.1 q.2 v) true hb' (dims2_set2 hd)
            with h1 | h1 | ⟨g2, h1, hd2, hl2⟩
          · exact Or.inl h1
          · exact Or.inr (Or.inr ⟨setCell g q.1 q.2 v, h1,
              dims2_set2 hd, hlt⟩)
          · exact Or.inr (Or.inr ⟨g2, h1, hd2, lt_trans hl2 hlt⟩)
        · have hstep : nakedStep (some (g, ch)) q = some (g, ch) := by
            simp only [nakedStep]
            rw [if_pos hz, hp]
          rw [hstep]
          exact ih g ch hb' hd
    · have hstep : nakedStep (some (g, ch)) q = some (g, ch) := by
        simp only [nakedStep]
        rw [if_neg hz]
      rw [hstep]
      exact ih g ch hb' hd

theorem nakedPass_cases (g : Grid) (ch : Bool) (hd : dims2 g) :
    nakedPass g ch = none ∨ nakedPass g ch = some (g, ch) ∨
      ∃ g1, nakedPass g ch = some (g1, true) ∧ dims2 g1 ∧
        emptyCount g1 < emptyCount g :=
  nakedFold_cases positions81 g ch (fun _ hp => mem_positions81.mp hp) hd

theorem nakedFold_none_inv : ∀ (l : List (Nat × Nat)) (g : Grid)
    (ch : Bool), l.foldl nakedStep (some (g, ch)) = none →
    ∃ l1 p l2 h ch2, l = l1 ++ p :: l2 ∧
      l1.foldl nakedStep (some (g, ch)) = some (h, ch2) ∧
      cell h p.1 p.2 = 0 ∧ getPossibleValues h p.1 p.2 = [] := by
  intro l
  induction l with
  | nil =>
    intro g ch h
    exact absurd h (by simp)
  | cons q qs ih =>
    intro g ch hnone
    rw [List.foldl_cons] at hnone
    by_cases hz : (cell g q.1 q.2 == 0) = true
    · rcases hp : getPossibleValues g q.1 q.2 with _ | ⟨v, rest⟩
      · exact ⟨[], q, qs, g, ch, rfl, rfl, by simpa using hz, hp⟩
      · rcases rest with _ | ⟨w, rest2⟩
        · have hstep : nakedStep (some (g, ch)) q
              = some (setCell g q.1 q.2 v, true) := by
            simp only [nakedStep]
            rw [if_pos hz, hp]
          rw [hstep] at hnone
          obtain ⟨l1, p, l2, h, ch2, heq, hfold, h0, hpv⟩ :=
            ih _ _ hnone
          exact ⟨q :: l1, p, l2, h, ch2, by rw [heq, List.cons_append],
            by rw [List.foldl_cons, hstep]; exact hfold, h0, hpv⟩
        · have hstep : nakedStep (some (g, ch)) q = some (g, ch) := by
            simp only [nakedStep]
            rw [if_pos hz, hp]
          rw [hstep] at hnone
          obtain ⟨l1, p, l2, h, ch2, heq, hfold, h0, hpv⟩ :=
            ih _ _ hnone
          exact ⟨q :: l1, p, l2, h, ch2, by rw [heq, List.cons_append],
            by rw [List.foldl_cons, hstep]; exact hfold, h0, hpv⟩
    · have hstep : nakedStep (some (g, ch)) q = some (g, ch) := by
        simp only [nakedStep]
        rw [if_neg hz]
      rw [hstep] at hnone
      obtain ⟨l1, p, l2, h, ch2, heq, hfold, h0, hpv⟩ := ih _ _ hnone
      exact ⟨q :: l1, p, l2, h, ch2, by rw [heq, List.cons_append],
        by rw [List.foldl_cons, hstep]; exact hfold, h0, hpv⟩

theorem logicPass_cases (g : Grid) (hd : dims2 g) :
    logicPass g = none ∨ logicPass g = some (g, false) ∨
      ∃ g1, logicPass g = some (g1, true) ∧ dims2 g1 ∧
        emptyCount g1 < emptyCount g := by
  rcases nakedPass_cases g false hd with h | h | ⟨g1, h, hd1, hlt⟩
  · left
    unfold logicPass
    rw [h]
  · rcases stepOK_hiddenPasses (g, false) hd with h2 | ⟨hd2, hlt2, hfl2⟩
    · right
      left
      unfold logicPass
      rw [h]
      show some (hiddenPasses (g, false)) = some (g, false)
      rw [h2]
    · right
      right
      rcases hhp : hiddenPasses (g, false) with ⟨g2, fl2⟩
      rw [hhp] at hd2 hlt2 hfl2
      have hfl : fl2 = true := hfl2
      subst hfl
      refine ⟨g2, ?_, hd2, hlt2⟩
      unfold logicPass
      rw [h]
      show some (hiddenPasses (g, false)) = some (g2, true)
      rw [hhp]
  · rcases stepOK_hiddenPasses (g1, true) hd1 with h2 | ⟨hd2, hlt2, hfl2⟩
    · right
      right
      refine ⟨g1, ?_, hd1, hlt⟩
      unfold logicPass
      rw [h]
      show some (hiddenPasses (g1, true)) = some (g1, true)
      rw [h2]
    · right
      right
      rcases hhp : hiddenPasses (g1, true) with ⟨g2, fl2⟩
      rw [hhp] at hd2 hlt2 hfl2
      have hfl : fl2 = true := hfl2
      subst hfl
      refine ⟨g2, ?_, hd2, lt_trans hlt2 hlt⟩
      unfold logicPass
      rw [h]
      show some (hiddenPasses (g1, true)) = some (g2, true)
      rw [hhp]

theorem solveLoop_succ (fuel : Nat) (g : Grid) :
    solveLoop (fuel + 1) g = match logicPass g with
      | none => none
      | some (g1, true) => solveLoop fuel g1
      | some (g1, false) => some g1 := rfl

theorem solveLoop_spec : ∀ (fuel : Nat) (g : Grid), dims2 g →
    emptyCount g < fuel →
    (∃ gBad, Relation.ReflTransGen stepRel g gBad ∧
        logicPass gBad = none ∧ solveLoop fuel g = none) ∨
      (∃ gfix, Relation.ReflTransGen stepRel g gfix ∧
        logicPass gfix = some (gfix, false) ∧
        solveLoop fuel g = some gfix) := by
  intro fuel
  induction fuel with
  | zero =>
    intro g _ h
    omega
  | succ n ih =>
    intro g hd hlt
    rcases logicPass_cases g hd with h | h | ⟨g1, h, hd1, hlt1⟩
    · refine Or.inl ⟨g, Relation.ReflTransGen.refl, h, ?_⟩
      rw [solveLoop_succ, h]
    · refine Or.inr ⟨g, Relation.ReflTransGen.refl, h, ?_⟩
      rw [solveLoop_succ, h]
    · rcases ih g1 hd1 (by omega) with
        ⟨gBad, htr, hnone, hsl⟩ | ⟨gfix, htr, hfix, hsl⟩
      · refine Or.inl ⟨gBad, Relation.ReflTransGen.head h htr, hnone, ?_⟩
        rw [solveLoop_succ, h]
        exact hsl
      · refine Or.inr ⟨gfix, Relation.ReflTransGen.head h htr, hfix, ?_⟩
        rw [solveLoop_succ, h]
        exact hsl

/-- Claim C8: `canSolveWithLogic` either hits a propagation dead-end — an
empty cell with zero remaining candidates during a naked-singles sweep —
and returns false, or it runs the naked-single and hidden-single passes to
a fixed point (an iteration in which nothing changed) and returns true
exactly when that fixed-point grid is fully filled.  (The source copies
the caller's grid into `workingBoard` before mutating; the pure embedding
carries that copy implicitly.) -/
theorem claim_C8 (g : Grid) (hd : dims2 g) :
    (∃ gBad, Relation.ReflTransGen stepRel g gBad ∧ deadEnd gBad ∧
        canSolveWithLogic g = false) ∨
      (∃ gfix, Relation.ReflTransGen stepRel g gfix ∧
        logicPass gfix = some (gfix, false) ∧
        (canSolveWithLogic g = true ↔ isCompleted gfix = true)) := by
  have hcnt : emptyCount g < 82 := by
    have := emptyCount_le_81 g
    omega
  rcases solveLoop_spec 82 g hd hcnt with
    ⟨gBad, htr, hnone, hsl⟩ | ⟨gfix, htr, hfix, hsl⟩
  · left
    refine ⟨gBad, htr, ?_, ?_⟩
    · have hnk : nakedPass gBad false = none := by
        unfold logicPass at hnone
        rcases hn : nakedPass gBad false with _ | st1
        · rfl
        · rw [hn] at hnone
          exact absurd hnone (by simp)
      exact nakedFold_none_inv positions81 gBad false hnk
    · unfold canSolveWithLogic
      rw [hsl]
  · right
    refine ⟨gfix, htr, hfix, ?_⟩
    unfold canSolveWithLogic
    rw [hsl]

/-- Witness for C8 at the concrete full grid `gridS0`: no dead-end, and
the (immediate) fixed point is complete, so the call returns true. -/
theorem claim_C8_witness :
    ((∃ gBad, Relation.ReflTransGen stepRel gridS0 gBad ∧ deadEnd gBad ∧
        canSolveWithLogic gridS0 = false) ∨
      (∃ gfix, Relation.ReflTransGen stepRel gridS0 gfix ∧
        logicPass gfix = some (gfix, false) ∧
        (canSolveWithLogic gridS0 = true ↔ isCompleted gfix = true))) :=
  claim_C8 gridS0 (by decide)

end Sudoku
